import Mathlib

/-!
Verification of the FileSystem MCP server (app.py) against its specification.

The program is embedded shallowly: paths are `String`s (lists of `Char`),
the POSIX branch of the Python path functions (`os.path.abspath`,
`posixpath.normpath`, `posixpath.join`, `posixpath.splitext`) is translated
definition by definition, and the filesystem is abstracted as explicit
record parameters (the code only observes it through `os.path.isdir`,
`os.path.isfile`, `os.path.exists`, `os.listdir`, `os.stat`, `os.walk` and
`open`).  Wall-clock fields (`elapsed_time`, `processing_time`,
`items_per_second`) and diagnostic message texts are elided from results;
every control-flow decision of the source is kept.
-/

namespace FsApp

/-! ## Character-level path primitives -/

/-- `path.replace(chr(92), chr(47))`: turn every backslash into a forward
slash (used twice inside `normalize_path`, app.py lines 38 and 44). -/
def replSlash (s : List Char) : List Char :=
  s.map (fun c => if c = '\\' then '/' else c)

/-- Python `str.split(chr(47))`: split a character list at every slash.
`splitSlash []` is `[[]]`, matching Python where splitting the empty string
yields a list holding one empty string. -/
def splitSlash : List Char → List (List Char)
  | [] => [[]]
  | c :: cs =>
    if c = '/' then [] :: splitSlash cs
    else
      match splitSlash cs with
      | [] => [[c]]
      | g :: gs => (c :: g) :: gs

/-- Python `sep.join(comps)` with `sep` a single slash. -/
def joinSeg : List (List Char) → List Char
  | [] => []
  | [g] => g
  | g :: g2 :: gs => g ++ '/' :: joinSeg (g2 :: gs)

/-- The two-character component `..`. -/
def dotdot : List Char := ['.', '.']

/-- The component filter loop of `posixpath.normpath`: `k` is
`initial_slashes` (0, 1 or 2), the accumulator holds the components built
so far in reverse (so Python's `new_comps[-1]` is the head). -/
def normComps (k : Nat) : List (List Char) → List (List Char) → List (List Char)
  | acc, [] => acc.reverse
  | acc, comp :: rest =>
    if comp = [] ∨ comp = ['.'] then normComps k acc rest
    else if comp ≠ dotdot ∨ (k = 0 ∧ acc = []) ∨ acc.head? = some dotdot then
      normComps k (comp :: acc) rest
    else
      normComps k acc.tail rest

/-- `initial_slashes` of `posixpath.normpath`: 2 when the path starts with
exactly two slashes (POSIX allows an implementation-defined meaning for
such paths), 1 for any other absolute path, 0 otherwise. -/
def initSlashes (p : List Char) : Nat :=
  if p.take 1 = ['/'] then
    if p.take 2 = ['/', '/'] ∧ ¬ p.take 3 = ['/', '/', '/'] then 2 else 1
  else 0

/-- `posixpath.normpath`: collapse empty and `.` components, resolve `..`
components, keep the (possibly doubled) leading slash. -/
def normpath (p : List Char) : List Char :=
  if p = [] then ['.']
  else
    let k := initSlashes p
    let comps := normComps k [] (splitSlash p)
    let res := List.replicate k '/' ++ joinSeg comps
    if res = [] then ['.'] else res

/-- `posixpath.isabs`. -/
def isabs (p : List Char) : Bool := p.take 1 = ['/']

/-- `posixpath.join` restricted to two arguments, which is the only way the
program calls it (`os.path.join(root, name)` inside the walks). -/
def pjoin (a b : List Char) : List Char :=
  if b.take 1 = ['/'] then b
  else if a = [] ∨ a.getLast? = some '/' then a ++ b
  else a ++ '/' :: b

/-- `posixpath.abspath`: make the path absolute against the process working
directory `cwd` (always absolute for a real process), then normalize. -/
def abspath (cwd p : List Char) : List Char :=
  if isabs p then normpath p else normpath (pjoin cwd p)

/-! ## normalize_path and is_allowed_path (app.py lines 19-44, 220-240) -/

/-- `normalize_path` (app.py lines 19-44): replace backslashes by slashes,
take `os.path.abspath`, and replace backslashes once more (a no-op on
POSIX, kept for faithfulness). -/
def normalize_path (cwd : String) (path : String) : String :=
  ⟨replSlash (abspath cwd.data (replSlash path.data))⟩

/-- `os.path.join` on strings (used by the resource walk). -/
def pjoinS (a b : String) : String := ⟨pjoin a.data b.data⟩

/-- `is_allowed_path` (app.py lines 220-240), POSIX branch (`os.name` is
not `nt`, so the comparison is case-sensitive): deny when no directories
are configured, otherwise normalize the argument and test whether some
configured root is a raw string prefix of it (`str.startswith`). -/
def is_allowed_path (roots : List String) (cwd : String) (path : String) : Bool :=
  if roots = [] then false
  else
    let normalized_path := normalize_path cwd path
    roots.any (fun allowed => allowed.data.isPrefixOf normalized_path.data)

/-- A path component in canonical position: nonempty, not `.`, not `..`,
and free of separators. -/
def Plain (g : List Char) : Prop :=
  g ≠ [] ∧ g ≠ ['.'] ∧ g ≠ dotdot ∧ '/' ∉ g

instance (g : List Char) : Decidable (Plain g) := by
  unfold Plain
  infer_instance

/-- A string already in the canonical form produced by `normalize_path`. -/
def NormAbs (s : List Char) : Prop :=
  isabs s = true ∧ '\\' ∉ s ∧ normpath s = s

/-! ## splitext and basename -/

/-- `os.path.basename`: the characters after the last slash. -/
def lastBase (p : List Char) : List Char :=
  (p.reverse.takeWhile (fun c => ¬ c = '/')).reverse

/-- `posixpath.splitext(p)[1]`: the extension starting at the last dot of
the basename, unless every character of the basename before that dot is
itself a dot (so `.bashrc` and `...` have no extension). -/
def splitextRaw (p : List Char) : List Char :=
  let base := lastBase p
  let rb := base.reverse
  let afterDot := rb.takeWhile (fun c => ¬ c = '.')
  if afterDot.length = rb.length then []
  else
    let pre := rb.drop (afterDot.length + 1)
    if pre.any (fun c => ¬ c = '.') then '.' :: afterDot.reverse
    else []

/-- `os.path.splitext(p)[1].lower()` as used at app.py lines 567, 639, 709
and 744 (`str.lower` modelled as ASCII lowering, which agrees with Python
on ASCII extensions). -/
def splitext_ext (s : String) : String := ⟨(splitextRaw s.data).map Char.toLower⟩

/-- `os.path.basename` on strings. -/
def basename (s : String) : String := ⟨lastBase s.data⟩

/-! ## base64 (the `base64.b64encode` call of read_file_binary) -/

def b64Alphabet : List Char :=
  "ABCDEFGHIJKLMNOPQRSTUVWXYZabcdefghijklmnopqrstuvwxyz0123456789+/".data

def b64Char (n : Nat) : Char := b64Alphabet.getD n 'A'

/-- RFC 4648 base64 of a byte list (each byte < 256), with `=` padding —
the behavior of `base64.b64encode`. -/
def b64encode : List Nat → List Char
  | [] => []
  | [a] => [b64Char (a / 4), b64Char (a % 4 * 16), '=', '=']
  | [a, b] => [b64Char (a / 4), b64Char (a % 4 * 16 + b / 16),
      b64Char (b % 16 * 4), '=']
  | a :: b :: c :: rest =>
      b64Char (a / 4) :: b64Char (a % 4 * 16 + b / 16)
        :: b64Char (b % 16 * 4 + c / 64) :: b64Char (c % 64) :: b64encode rest

def b64Val (c : Char) : Nat := b64Alphabet.indexOf c

/-- The standard base64 decoder (quartets of alphabet characters with
optional `=` padding), used to state the encode/decode round trip. -/
def b64decode : List Char → List Nat
  | a :: b :: c :: d :: rest =>
    if c = '=' then [b64Val a * 4 + b64Val b / 16]
    else if d = '=' then
      [b64Val a * 4 + b64Val b / 16, b64Val b % 16 * 16 + b64Val c / 4]
    else (b64Val a * 4 + b64Val b / 16) :: (b64Val b % 16 * 16 + b64Val c / 4)
        :: (b64Val c % 4 * 64 + b64Val d) :: b64decode rest
  | _ => []

/-! ## stat metadata and the resource descriptor -/

/-- The two fields of `os.stat` the program reads.  `st_mtime` is modelled
in whole seconds since the epoch. -/
structure FileStat where
  st_size : Nat
  st_mtime : Nat
  deriving DecidableEq, Repr

/-- Days since 1970-01-01 to a civil (year, month, day), the standard
era-based conversion computed by `datetime.utcfromtimestamp`. -/
def civilFromDays (z : Nat) : Nat × Nat × Nat :=
  let z2 := z + 719468
  let era := z2 / 146097
  let doe := z2 % 146097
  let yoe := (doe - doe / 1460 + doe / 36524 - doe / 146096) / 365
  let y := yoe + era * 400
  let doy := doe - (365 * yoe + yoe / 4 - yoe / 100)
  let mp := (5 * doy + 2) / 153
  let d := doy - (153 * mp + 2) / 5 + 1
  let m := if mp < 10 then mp + 3 else mp + 3 - 12
  (if m ≤ 2 then y + 1 else y, m, d)

def pad2 (n : Nat) : String := if n < 10 then "0" ++ toString n else toString n

def pad4 (n : Nat) : String :=
  if n < 10 then "000" ++ toString n
  else if n < 100 then "00" ++ toString n
  else if n < 1000 then "0" ++ toString n
  else toString n

/-- `datetime.datetime.utcfromtimestamp(t).isoformat()` for a whole-second
timestamp `t ≥ 0`: the microsecond part is zero, so isoformat emits
`YYYY-MM-DDTHH:MM:SS`. -/
def isoformatUTC (t : Nat) : String :=
  let days := t / 86400
  let rem := t % 86400
  let c := civilFromDays days
  pad4 c.1 ++ "-" ++ pad2 c.2.1 ++ "-" ++ pad2 c.2.2 ++ "T"
    ++ pad2 (rem / 3600) ++ ":" ++ pad2 (rem % 3600 / 60) ++ ":"
    ++ pad2 (rem % 60)

/-- The uniform resource descriptor built by get_resource and
list_resources: id, type, name, path, metadata (size/modified, both absent
for directories), actions. -/
structure Resource where
  id : String
  type : String
  name : String
  path : String
  size : Option Nat
  modified : Option String
  actions : List String
  deriving DecidableEq, Repr

/-- Directory descriptor (app.py 619-626 and 700-707): empty metadata,
actions `[list]`. -/
def dirResource (path_norm name : String) : Resource :=
  ⟨path_norm, "directory", name, path_norm, none, none, ["list"]⟩

/-- File descriptor (app.py 641-658 and 712-729): when `os.stat` succeeds
(`st = some _`), size is the byte count and modified is
`utcfromtimestamp(st_mtime).isoformat() + "Z"`; when it fails
(`st = none`), both metadata fields degrade to absent.  Actions are
`[read, read_binary]` in every case. -/
def fileResource (path_norm name : String) (st : Option FileStat) : Resource :=
  ⟨path_norm, "file", name, path_norm,
    st.map FileStat.st_size,
    st.map (fun s => isoformatUTC s.st_mtime ++ "Z"),
    ["read", "read_binary"]⟩

/-! ## read_file and read_file_binary (app.py 543-577, 733-753) -/

/-- The filesystem as observed by the two read operations.
`readBytes p = none` models `open(p, mode rb)` raising; `readText` is the
result of the UTF-8 read with `errors=replace` (total: replacement never
fails). -/
structure FileFS where
  isfile : String → Bool
  readText : String → String
  readBytes : String → Option (List Nat)

inductive ReadErr where
  | accessDenied
  | notAFile
  | disallowedExtension
  | ioError
  deriving DecidableEq, Repr

/-- `read_file` (app.py 543-577).  The code signals every failure by
RAISING `ValueError` (documented in its own docstring); `Except.error`
models that raised exception, `Except.ok` the returned text. -/
def read_file (roots exts : List String) (cwd : String) (fs : FileFS)
    (file_path : String) : Except ReadErr String :=
  let normalized_file := normalize_path cwd file_path
  if ¬ is_allowed_path roots cwd normalized_file then .error .accessDenied
  else if ¬ fs.isfile normalized_file then .error .notAFile
  else if ¬ exts.contains (splitext_ext normalized_file) then
    .error .disallowedExtension
  else .ok (fs.readText normalized_file)

/-- Result of `read_file_binary`: both constructors are ordinary returned
dictionaries (`error:true` vs `content_base64`/`encoding`) — this
operation never raises. -/
inductive RFBResult where
  | err (kind : ReadErr)
  | ok (content_base64 : String) (encoding : String)
  deriving DecidableEq, Repr

/-- `read_file_binary` (app.py 733-753): same check order as `read_file`,
then the bytes are read and re-encoded with `base64.b64encode`; any read
exception is caught and returned as a structured error. -/
def read_file_binary (roots exts : List String) (cwd : String) (fs : FileFS)
    (file_path : String) : RFBResult :=
  let normalized_file := normalize_path cwd file_path
  if ¬ is_allowed_path roots cwd normalized_file then .err .accessDenied
  else if ¬ fs.isfile normalized_file then .err .notAFile
  else if ¬ exts.contains (splitext_ext normalized_file) then
    .err .disallowedExtension
  else
    match fs.readBytes normalized_file with
    | some data => .ok ⟨b64encode data⟩ "base64"
    | none => .err .ioError

/-! ## list_directory (app.py 392-541) -/

/-- The filesystem as observed by list_directory; `listdir p = none`
models the caught `PermissionError` / `FileNotFoundError` / `OSError`
branches. -/
structure DirFS where
  isdir : String → Bool
  listdir : String → Option (List String)

/-- The checkpoint sequence of list_directory's enumeration loop (app.py
457-474): for each index `i` below `total` a checkpoint with
`processed = i+1` is appended iff `(i+1) % batch_size == 0` or `i+1`
is the final item.  Only the `processed` field is modelled (total,
percentage, elapsed_time and items_per_second are derived or wall-clock
data). -/
def ldUpdates (total batch : Nat) : List Nat :=
  (List.range total).filterMap fun i =>
    if (i + 1) % batch = 0 ∨ i + 1 = total then some (i + 1) else none

inductive LDStage where
  | permissionCheck
  | directoryValidation
  | listdirFailed
  deriving DecidableEq, Repr

/-- Result of list_directory: error dictionaries (progress mode) or
`[error, message]` lists (bulk mode) on failure; contents plus progress
envelope, or the bare contents list, on success.  Every constructor is a
returned value — the operation catches all exceptions. -/
inductive LDResult where
  | errProgress (stage : LDStage)
  | errList (stage : LDStage)
  | okProgress (contents : List String) (total_items : Nat) (updates : List Nat)
  | okList (contents : List String)
  deriving DecidableEq, Repr

/-- `list_directory` (app.py 392-541). -/
def list_directory (roots : List String) (cwd : String) (fs : DirFS)
    (directory : String) (report_progress : Bool) (batch_size : Nat) :
    LDResult :=
  let normalized_dir := normalize_path cwd directory
  if ¬ is_allowed_path roots cwd normalized_dir then
    if report_progress then .errProgress .permissionCheck
    else .errList .permissionCheck
  else if ¬ fs.isdir normalized_dir then
    if report_progress then .errProgress .directoryValidation
    else .errList .directoryValidation
  else
    match fs.listdir normalized_dir with
    | none =>
      if report_progress then .errProgress .listdirFailed
      else .errList .listdirFailed
    | some directory_contents =>
      if report_progress then
        .okProgress directory_contents directory_contents.length
          (ldUpdates directory_contents.length batch_size)
      else .okList directory_contents

/-! ## init (app.py 242-390, validation core) -/

structure InitFS where
  pexists : String → Bool
  isdir : String → Bool
  listdirOk : String → Bool

structure InitReport where
  isError : Bool
  accessible_dirs : List String
  inaccessible_dirs : List String
  deriving DecidableEq, Repr

/-- `init` (app.py 242-390) restricted to its validation core: the two
empty-configuration early returns and the per-root accessibility loop.
The optional `directory`/`file_path` echo calls (lines 355-389) only add
extra keys to the success-path response and are not modelled; the
`message`/`details` texts are elided. -/
def init (roots exts : List String) (fs : InitFS) : InitReport :=
  if roots = [] then ⟨true, [], []⟩
  else if exts = [] then ⟨true, [], []⟩
  else
    let r := roots.foldl
      (fun (acc : List String × List String) d =>
        if ¬ fs.pexists d then (acc.1, acc.2 ++ [d])
        else if ¬ fs.isdir d then (acc.1, acc.2 ++ [d])
        else if fs.listdirOk d then (acc.1 ++ [d], acc.2)
        else (acc.1, acc.2 ++ [d]))
      ([], [])
    ⟨!r.2.isEmpty, r.1, r.2⟩

/-! ## get_resource (app.py 687-731) -/

/-- The filesystem as observed by get_resource; `stat p = none` models the
caught stat exception (app.py 716-718). -/
structure StatFS where
  pexists : String → Bool
  isdir : String → Bool
  isfile : String → Bool
  stat : String → Option FileStat

inductive GRErr where
  | accessDenied
  | notFound
  | disallowedExtension
  | neitherFileNorDir
  deriving DecidableEq, Repr

inductive GRResult where
  | err (kind : GRErr)
  | res (r : Resource)
  deriving DecidableEq, Repr

/-- `get_resource` (app.py 687-731). -/
def get_resource (roots exts : List String) (cwd : String) (fs : StatFS)
    (path : String) : GRResult :=
  let normalized_path := normalize_path cwd path
  if ¬ is_allowed_path roots cwd normalized_path then .err .accessDenied
  else if ¬ fs.pexists normalized_path then .err .notFound
  else
    let name := basename normalized_path
    if fs.isdir normalized_path then .res (dirResource normalized_path name)
    else if fs.isfile normalized_path then
      if ¬ exts.contains (splitext_ext name) then .err .disallowedExtension
      else .res (fileResource normalized_path name (fs.stat normalized_path))
    else .err .neitherFileNorDir

/-! ## list_resources (app.py 579-685) -/

/-- A directory tree as traversed by `os.walk`: a file carries the outcome
of the `os.stat` call the walk will make on it, a directory carries its
entries in listing order. -/
inductive FSNode where
  | file (name : String) (st : Option FileStat)
  | dir (name : String) (children : List FSNode)

def entryName : FSNode → String
  | .file n _ => n
  | .dir n _ => n

def names (cs : List FSNode) : List String := cs.map entryName

def dirNames : List FSNode → List String
  | [] => []
  | .file _ _ :: rest => dirNames rest
  | .dir d _ :: rest => d :: dirNames rest

def fileNames : List FSNode → List String
  | [] => []
  | .file f _ :: rest => f :: fileNames rest
  | .dir _ _ :: rest => fileNames rest

/-- The `for d in dirs` half of one `os.walk` iteration (app.py 615-634):
for each directory entry `d` of the current `root`, join, normalize, and
keep a directory descriptor when the guard allows it. -/
def walkDirs (roots : List String) (cwd root : String) :
    List FSNode → List Resource
  | [] => []
  | .file _ _ :: rest => walkDirs roots cwd root rest
  | .dir d _ :: rest =>
    let dir_path := pjoinS root d
    let dir_path_norm := normalize_path cwd dir_path
    (if is_allowed_path roots cwd dir_path_norm then
      [dirResource dir_path_norm d] else [])
      ++ walkDirs roots cwd root rest

/-- The `for f in files` half of one `os.walk` iteration (app.py 635-666):
keep a file descriptor when the guard allows the path and the lowercased
extension of the name is permitted. -/
def walkFiles (roots exts : List String) (cwd root : String) :
    List FSNode → List Resource
  | [] => []
  | .dir _ _ :: rest => walkFiles roots exts cwd root rest
  | .file f st :: rest =>
    let file_path := pjoinS root f
    let file_path_norm := normalize_path cwd file_path
    let ext := splitext_ext f
    (if is_allowed_path roots cwd file_path_norm && exts.contains ext then
      [fileResource file_path_norm f st] else [])
      ++ walkFiles roots exts cwd root rest

mutual
/-- The recursive descent of `os.walk` (topdown): after the current
root's own dirs/files are processed, each subdirectory is walked in
order. -/
def walkSubs (roots exts : List String) (cwd root : String) :
    List FSNode → List Resource
  | [] => []
  | c :: rest =>
    walkSubOne roots exts cwd root c ++ walkSubs roots exts cwd root rest

def walkSubOne (roots exts : List String) (cwd root : String) :
    FSNode → List Resource
  | .file _ _ => []
  | .dir d cs =>
    let sub := pjoinS root d
    walkDirs roots cwd sub cs ++ walkFiles roots exts cwd sub cs
      ++ walkSubs roots exts cwd sub cs
end

/-- All resources appended by the `os.walk` loop of list_resources
(app.py 612-666) over a base directory whose entry forest is `cs`. -/
def walkResources (roots exts : List String) (cwd base : String)
    (cs : List FSNode) : List Resource :=
  walkDirs roots cwd base cs ++ walkFiles roots exts cwd base cs
    ++ walkSubs roots exts cwd base cs

/-- The checkpoint sequence of list_resources (app.py 627-634, 659-666):
`processed` is incremented once per appended resource and a checkpoint is
appended exactly when `processed % batch_size == 0`.  Unlike
list_directory, there is NO unconditional checkpoint on the final item. -/
def lrUpdates (count batch : Nat) : List Nat :=
  (List.range count).filterMap fun i =>
    if (i + 1) % batch = 0 then some (i + 1) else none

inductive LRResult where
  | err
  | okProgress (contents : List Resource) (total_items : Nat)
      (updates : List Nat)
  | okList (contents : List Resource)
  deriving DecidableEq, Repr

/-- `list_resources` (app.py 579-685) for a call with an explicit
`directory` argument: `tree` is `some cs` when `os.path.isdir` holds of
the normalized directory (with entry forest `cs`), `none` otherwise.  The
returned `total_items` is the processed counter (app.py 673); the
pre-counted total feeds only the elided percentage field. -/
def list_resources (roots exts : List String) (cwd : String)
    (directory : String) (tree : Option (List FSNode))
    (report_progress : Bool) (batch_size : Nat) : LRResult :=
  let dir_norm := normalize_path cwd directory
  if ¬ is_allowed_path roots cwd dir_norm then .err
  else
    match tree with
    | none => .err
    | some cs =>
      let resources := walkResources roots exts cwd dir_norm cs
      if report_progress then
        .okProgress resources resources.length
          (lrUpdates resources.length batch_size)
      else .okList resources

/-! ## Tree measures and well-formedness (for stating C7) -/

mutual
def nodeFiles : FSNode → Nat
  | .file _ _ => 1
  | .dir _ cs => forestFiles cs

def forestFiles : List FSNode → Nat
  | [] => 0
  | c :: rest => nodeFiles c + forestFiles rest
end

mutual
def nodeDirs : FSNode → Nat
  | .file _ _ => 0
  | .dir _ cs => 1 + forestDirs cs

def forestDirs : List FSNode → Nat
  | [] => 0
  | c :: rest => nodeDirs c + forestDirs rest
end

/-- A usable entry name: a canonical plain path component without
backslashes (true of every name a real directory listing can produce). -/
def plainNameB (n : String) : Bool := decide (Plain n.data ∧ '\\' ∉ n.data)

mutual
/-- Well-formed tree: every name is plain and sibling names are distinct
(true of every real directory tree). -/
def wfNode : FSNode → Bool
  | .file n _ => plainNameB n
  | .dir n cs => plainNameB n && wfForest cs && decide (names cs).Nodup

def wfForest : List FSNode → Bool
  | [] => true
  | c :: rest => wfNode c && wfForest rest
end

def wfTree (cs : List FSNode) : Bool := wfForest cs && decide (names cs).Nodup

mutual
/-- Every file in the forest has a permitted extension. -/
def extOKNode (exts : List String) : FSNode → Bool
  | .file f _ => exts.contains (splitext_ext f)
  | .dir _ cs => extOKForest exts cs

def extOKForest (exts : List String) : List FSNode → Bool
  | [] => true
  | c :: rest => extOKNode exts c && extOKForest exts rest
end

mutual
/-- Relative segment paths of all entries of a forest, in the exact order
the walk emits their descriptors. -/
def relSubs : List FSNode → List (List String)
  | [] => []
  | c :: rest => relSubOne c ++ relSubs rest

def relSubOne : FSNode → List (List String)
  | .file _ _ => []
  | .dir d cs =>
    ((dirNames cs).map (fun n => [n]) ++ (fileNames cs).map (fun n => [n])
      ++ relSubs cs).map (fun segs => d :: segs)
end

def relPaths (cs : List FSNode) : List (List String) :=
  (dirNames cs).map (fun n => [n]) ++ (fileNames cs).map (fun n => [n])
    ++ relSubs cs

/-- Fold a relative segment path onto a base with `os.path.join`. -/
def appendSegs (p : String) (segs : List String) : String := segs.foldl pjoinS p

/-! ## Concrete filesystems for witnesses -/

/-- The filesystem of the spec scenario: `/data/a.txt` holds the text
`hi` (bytes 104 105) and `/data/a.bin` holds bytes 0, 1, 2. -/
def scenarioFS : FileFS where
  isfile := fun s => s == "/data/a.txt" || s == "/data/a.bin"
  readText := fun s => if s == "/data/a.txt" then "hi" else ""
  readBytes := fun s =>
    if s == "/data/a.txt" then some [104, 105]
    else if s == "/data/a.bin" then some [0, 1, 2]
    else none

/-- A directory filesystem with `/data` holding three entries. -/
def scenarioDirFS : DirFS where
  isdir := fun s => s == "/data"
  listdir := fun s =>
    if s == "/data" then some ["a.txt", "a.bin", "sub"] else none

/-- A stat filesystem where `/data/a.txt` is a file with a known stat and
`/data/broken.txt` a file whose stat call fails. -/
def scenarioStatFS : StatFS where
  pexists := fun s => s == "/data/a.txt" || s == "/data/broken.txt" || s == "/data"
  isdir := fun s => s == "/data"
  isfile := fun s => s == "/data/a.txt" || s == "/data/broken.txt"
  stat := fun s => if s == "/data/a.txt" then some ⟨2, 86400⟩ else none

/-- A small concrete tree for witnesses: one subdirectory holding one
file, plus one file at the top level (2 files, 1 directory). -/
def demoTree : List FSNode :=
  [.dir "sub" [.file "b.txt" none], .file "a.txt" (some ⟨2, 0⟩)]

/-! ## Properties of the path primitives -/

theorem splitSlash_ne_nil (p : List Char) : splitSlash p ≠ [] := by
  induction p with
  | nil => simp [splitSlash]
  | cons c cs ih =>
    simp only [splitSlash]
    split
    · simp
    · cases h : splitSlash cs with
      | nil => simp
      | cons g gs => simp

theorem mem_splitSlash_no_slash (p : List Char) :
    ∀ g ∈ splitSlash p, '/' ∉ g := by
  induction p with
  | nil => simp [splitSlash]
  | cons c cs ih =>
    simp only [splitSlash]
    split
    · intro g hg
      rcases List.mem_cons.mp hg with h | h
      · simp [h]
      · exact ih g h
    · rename_i hc
      cases h : splitSlash cs with
      | nil => exact absurd h (splitSlash_ne_nil cs)
      | cons g gs =>
        intro x hx
        rcases List.mem_cons.mp hx with h' | h'
        · subst h'
          intro hmem
          rcases List.mem_cons.mp hmem with h'' | h''
          · exact hc h''.symm
          · exact ih g (h ▸ List.mem_cons_self g gs) h''
        · exact ih x (h ▸ List.mem_cons_of_mem g h')

theorem splitSlash_of_no_slash (g : List Char) (hg : '/' ∉ g) :
    splitSlash g = [g] := by
  induction g with
  | nil => simp [splitSlash]
  | cons c cs ih =>
    have hc : ¬ c = '/' := fun h => hg (by simp [h])
    have hcs : '/' ∉ cs := fun h => hg (List.mem_cons_of_mem c h)
    simp only [splitSlash, if_neg hc, ih hcs]

theorem splitSlash_append_cons (g t : List Char) (hg : '/' ∉ g) :
    splitSlash (g ++ '/' :: t) = g :: splitSlash t := by
  induction g with
  | nil => simp [splitSlash]
  | cons c cs ih =>
    have hc : ¬ c = '/' := fun h => hg (by simp [h])
    have hcs : '/' ∉ cs := fun h => hg (List.mem_cons_of_mem c h)
    rw [List.cons_append]
    simp only [splitSlash, if_neg hc, List.append_eq]
    rw [ih hcs]

theorem joinSeg_cons₂ (g g2 : List Char) (gs : List (List Char)) :
    joinSeg (g :: g2 :: gs) = g ++ '/' :: joinSeg (g2 :: gs) := rfl

theorem splitSlash_joinSeg (gs : List (List Char)) (hne : gs ≠ [])
    (h : ∀ g ∈ gs, '/' ∉ g) : splitSlash (joinSeg gs) = gs := by
  induction gs with
  | nil => exact absurd rfl hne
  | cons g rest ih =>
    cases rest with
    | nil => simpa [joinSeg] using splitSlash_of_no_slash g (h g (by simp))
    | cons g2 gs2 =>
      rw [joinSeg_cons₂, splitSlash_append_cons g _ (h g (by simp)),
        ih (by simp) (fun x hx => h x (List.mem_cons_of_mem g hx))]

theorem normComps_plain_id (k : Nat) (comps : List (List Char))
    (h : ∀ g ∈ comps, Plain g) :
    ∀ acc, normComps k acc comps = acc.reverse ++ comps := by
  induction comps with
  | nil => intro acc; simp [normComps]
  | cons comp rest ih =>
    intro acc
    obtain ⟨h1, h2, h3, _⟩ := h comp (by simp)
    have hrest : ∀ g ∈ rest, Plain g :=
      fun g hg => h g (List.mem_cons_of_mem comp hg)
    simp only [normComps, if_neg (not_or.mpr ⟨h1, h2⟩), if_pos (Or.inl h3),
      ih hrest]
    simp

theorem normComps_plain (k : Nat) (hk : 1 ≤ k) (comps : List (List Char)) :
    ∀ acc, (∀ g ∈ acc, Plain g) → (∀ g ∈ comps, '/' ∉ g) →
    ∀ g ∈ normComps k acc comps, Plain g := by
  induction comps with
  | nil =>
    intro acc hacc _ g hg
    exact hacc g (by simpa [normComps] using hg)
  | cons comp rest ih =>
    intro acc hacc hcomps g hg
    have hrest : ∀ x ∈ rest, '/' ∉ x :=
      fun x hx => hcomps x (List.mem_cons_of_mem comp hx)
    by_cases h1 : comp = [] ∨ comp = ['.']
    · rw [show normComps k acc (comp :: rest) = normComps k acc rest from by
        simp [normComps, h1]] at hg
      exact ih acc hacc hrest g hg
    · by_cases h2 : comp ≠ dotdot ∨ (k = 0 ∧ acc = []) ∨
          acc.head? = some dotdot
      · rw [show normComps k acc (comp :: rest)
            = normComps k (comp :: acc) rest from by
          simp only [normComps]; rw [if_neg h1, if_pos h2]] at hg
        push_neg at h1
        have hnd : comp ≠ dotdot := by
          rcases h2 with h' | h' | h'
          · exact h'
          · omega
          · cases acc with
            | nil => simp at h'
            | cons a as =>
              have ha : a = dotdot := by simpa using h'
              exact absurd ha (hacc a (by simp)).2.2.1
        have hpl : Plain comp := ⟨h1.1, h1.2, hnd, hcomps comp (by simp)⟩
        refine ih (comp :: acc) ?_ hrest g hg
        intro x hx
        rcases List.mem_cons.mp hx with hx' | hx'
        · exact hx' ▸ hpl
        · exact hacc x hx'
      · rw [show normComps k acc (comp :: rest)
            = normComps k acc.tail rest from by
          simp only [normComps]; rw [if_neg h1, if_neg h2]] at hg
        exact ih acc.tail (fun x hx => hacc x (List.mem_of_mem_tail hx))
          hrest g hg

theorem splitSlash_replicate_slash (k : Nat) (t : List Char) :
    splitSlash (List.replicate k '/' ++ t)
      = List.replicate k [] ++ splitSlash t := by
  induction k with
  | zero => simp [List.replicate]
  | succ n ih => simp [List.replicate, splitSlash, ih]

theorem normComps_skip_nils (k m : Nat) (acc l : List (List Char)) :
    normComps k acc (List.replicate m [] ++ l) = normComps k acc l := by
  induction m with
  | zero => simp [List.replicate]
  | succ n ih => simp [List.replicate, normComps, ih]

theorem initSlashes_canon (k : Nat) (hk1 : 1 ≤ k) (hk2 : k ≤ 2)
    (comps : List (List Char)) (h : ∀ g ∈ comps, Plain g) :
    initSlashes (List.replicate k '/' ++ joinSeg comps) = k := by
  have hjoin : joinSeg comps = [] ∨
      ∃ c t, joinSeg comps = c :: t ∧ c ≠ '/' := by
    cases comps with
    | nil => exact Or.inl rfl
    | cons g gs =>
      obtain ⟨h1, _, _, h4⟩ := h g (by simp)
      obtain ⟨c, cs, rfl⟩ : ∃ c cs, g = c :: cs := by
        cases g with
        | nil => exact absurd rfl h1
        | cons c cs => exact ⟨c, cs, rfl⟩
      have hc : c ≠ '/' := fun hc => h4 (by simp [hc])
      cases gs with
      | nil => exact Or.inr ⟨c, cs, rfl, hc⟩
      | cons g2 gs2 =>
        exact Or.inr ⟨c, cs ++ '/' :: joinSeg (g2 :: gs2), rfl, hc⟩
  interval_cases k
  · rcases hjoin with hj | ⟨c, t, heq, hc⟩
    · simp [hj, initSlashes, List.replicate]
    · simp [heq, initSlashes, List.replicate, hc]
  · rcases hjoin with hj | ⟨c, t, heq, hc⟩
    · simp [hj, initSlashes, List.replicate]
    · simp [heq, initSlashes, List.replicate, hc]

theorem normComps_canon (k : Nat) (comps : List (List Char))
    (h : ∀ g ∈ comps, Plain g) :
    normComps k [] (splitSlash (joinSeg comps)) = comps := by
  by_cases hcomps : comps = []
  · subst hcomps
    simp [joinSeg, splitSlash, normComps]
  · rw [splitSlash_joinSeg comps hcomps (fun g hg => (h g hg).2.2.2),
      normComps_plain_id k comps h []]
    simp

/-- `normpath` fixes every path already in canonical absolute form. -/
theorem normpath_canon (k : Nat) (hk1 : 1 ≤ k) (hk2 : k ≤ 2)
    (comps : List (List Char)) (h : ∀ g ∈ comps, Plain g) :
    normpath (List.replicate k '/' ++ joinSeg comps)
      = List.replicate k '/' ++ joinSeg comps := by
  have hpne : List.replicate k '/' ++ joinSeg comps ≠ [] := by
    cases k with
    | zero => omega
    | succ n => simp [List.replicate]
  simp only [normpath, if_neg hpne]
  rw [initSlashes_canon k hk1 hk2 comps h, splitSlash_replicate_slash,
    normComps_skip_nils, normComps_canon k comps h, if_neg hpne]

/-- Any absolute path normalizes to canonical absolute form. -/
theorem normpath_abs_form (p : List Char) (habs : isabs p = true) :
    ∃ k comps, 1 ≤ k ∧ k ≤ 2 ∧ (∀ g ∈ comps, Plain g) ∧
      normpath p = List.replicate k '/' ++ joinSeg comps := by
  have htake : p.take 1 = ['/'] := by
    simpa [isabs] using habs
  have hpne : p ≠ [] := by
    intro h
    rw [h] at htake
    simp at htake
  have hk : 1 ≤ initSlashes p ∧ initSlashes p ≤ 2 := by
    simp only [initSlashes, if_pos htake]
    split <;> omega
  refine ⟨initSlashes p, normComps (initSlashes p) [] (splitSlash p),
    hk.1, hk.2, ?_, ?_⟩
  · exact normComps_plain (initSlashes p) hk.1 (splitSlash p) []
      (by simp) (mem_splitSlash_no_slash p)
  · have hres : List.replicate (initSlashes p) '/' ++
        joinSeg (normComps (initSlashes p) [] (splitSlash p)) ≠ [] := by
      rcases hk with ⟨hk1, _⟩
      cases hI : initSlashes p with
      | zero => omega
      | succ n => simp [List.replicate]
    simp only [normpath, if_neg hpne, if_neg hres]

theorem normpath_idem_abs (p : List Char) (habs : isabs p = true) :
    normpath (normpath p) = normpath p := by
  obtain ⟨k, comps, hk1, hk2, hpl, heq⟩ := normpath_abs_form p habs
  rw [heq, normpath_canon k hk1 hk2 comps hpl]

theorem isabs_normpath (p : List Char) (habs : isabs p = true) :
    isabs (normpath p) = true := by
  obtain ⟨k, comps, hk1, hk2, _, heq⟩ := normpath_abs_form p habs
  rw [heq]
  cases k with
  | zero => omega
  | succ n => simp [isabs, List.replicate]

theorem mem_of_mem_splitSlash (p : List Char) :
    ∀ g ∈ splitSlash p, ∀ c ∈ g, c ∈ p := by
  induction p with
  | nil =>
    intro g hg
    simp only [splitSlash, List.mem_singleton] at hg
    simp [hg]
  | cons a cs ih =>
    intro g hg c hc
    simp only [splitSlash] at hg
    split at hg
    · rcases List.mem_cons.mp hg with h | h
      · simp [h] at hc
      · exact List.mem_cons_of_mem a (ih g h c hc)
    · rcases hsp : splitSlash cs with _ | ⟨g0, gs0⟩
      · exact absurd hsp (splitSlash_ne_nil cs)
      · rw [hsp] at hg
        rcases List.mem_cons.mp hg with h | h
        · subst h
          rcases List.mem_cons.mp hc with h' | h'
          · simp [h']
          · exact List.mem_cons_of_mem a
              (ih g0 (hsp ▸ List.mem_cons_self g0 gs0) c h')
        · exact List.mem_cons_of_mem a
            (ih g (hsp ▸ List.mem_cons_of_mem g0 h) c hc)

theorem normComps_mem (k : Nat) (comps : List (List Char)) :
    ∀ acc x, x ∈ normComps k acc comps → x ∈ acc ∨ x ∈ comps := by
  induction comps with
  | nil =>
    intro acc x hx
    simp only [normComps, List.mem_reverse] at hx
    exact Or.inl hx
  | cons comp rest ih =>
    intro acc x hx
    simp only [normComps] at hx
    split at hx
    · rcases ih acc x hx with h | h
      · exact Or.inl h
      · exact Or.inr (List.mem_cons_of_mem comp h)
    · split at hx
      · rcases ih (comp :: acc) x hx with h | h
        · rcases List.mem_cons.mp h with h' | h'
          · exact Or.inr (h' ▸ List.mem_cons_self comp rest)
          · exact Or.inl h'
        · exact Or.inr (List.mem_cons_of_mem comp h)
      · rcases ih acc.tail x hx with h | h
        · exact Or.inl (List.mem_of_mem_tail h)
        · exact Or.inr (List.mem_cons_of_mem comp h)

theorem mem_joinSeg (gs : List (List Char)) :
    ∀ c ∈ joinSeg gs, c = '/' ∨ ∃ g ∈ gs, c ∈ g := by
  induction gs with
  | nil => simp [joinSeg]
  | cons g rest ih =>
    intro c hc
    cases rest with
    | nil =>
      simp only [joinSeg] at hc
      exact Or.inr ⟨g, by simp, hc⟩
    | cons g2 gs2 =>
      rw [joinSeg_cons₂] at hc
      rcases List.mem_append.mp hc with h | h
      · exact Or.inr ⟨g, by simp, h⟩
      · rcases List.mem_cons.mp h with h' | h'
        · exact Or.inl h'
        · rcases ih c h' with h'' | ⟨g', hg', hcg'⟩
          · exact Or.inl h''
          · exact Or.inr ⟨g', List.mem_cons_of_mem g hg', hcg'⟩

theorem no_bslash_normpath (p : List Char) (h : '\\' ∉ p) :
    '\\' ∉ normpath p := by
  by_cases hp : p = []
  · simp [hp, normpath]
  · simp only [normpath, if_neg hp]
    split
    · simp
    · intro hmem
      rcases List.mem_append.mp hmem with h' | h'
      · exact absurd (List.eq_of_mem_replicate h') (by simp)
      · rcases mem_joinSeg _ _ h' with h'' | ⟨g, hg, hcg⟩
        · simp at h''
        · rcases normComps_mem _ _ [] g hg with h3 | h3
          · simp at h3
          · exact h (mem_of_mem_splitSlash p g h3 _ hcg)

theorem replSlash_no_bslash (s : List Char) : '\\' ∉ replSlash s := by
  intro h
  simp only [replSlash, List.mem_map] at h
  obtain ⟨c, _, hc⟩ := h
  by_cases h' : c = '\\' <;> simp [h'] at hc

theorem replSlash_of_no_bslash (s : List Char) (h : '\\' ∉ s) :
    replSlash s = s := by
  induction s with
  | nil => rfl
  | cons c cs ih =>
    have hc : c ≠ '\\' := fun h' => h (by simp [h'])
    have hcs : '\\' ∉ cs := fun h' => h (List.mem_cons_of_mem c h')
    simp [replSlash, hc] at ih ⊢
    exact ih hcs

theorem pjoin_no_bslash (a b : List Char) (ha : '\\' ∉ a) (hb : '\\' ∉ b) :
    '\\' ∉ pjoin a b := by
  simp only [pjoin]
  split
  · exact hb
  · split
    · intro h
      rcases List.mem_append.mp h with h' | h'
      · exact ha h'
      · exact hb h'
    · intro h
      rcases List.mem_append.mp h with h' | h'
      · exact ha h'
      · rcases List.mem_cons.mp h' with h'' | h''
        · simp at h''
        · exact hb h''

theorem isabs_pjoin (a b : List Char) (ha : isabs a = true) :
    isabs (pjoin a b) = true := by
  have htake : a.take 1 = ['/'] := by simpa [isabs] using ha
  obtain ⟨a', rfl⟩ : ∃ a', a = '/' :: a' := by
    cases a with
    | nil => simp at htake
    | cons c cs =>
      simp only [List.take_succ_cons, List.take_zero,
        List.cons.injEq, and_true] at htake
      exact ⟨cs, by simp [htake]⟩
  simp only [pjoin]
  split
  · rename_i h
    simpa [isabs] using h
  · split <;> simp [isabs]

theorem abspath_normAbs (cwd p : List Char) (habs : isabs cwd = true)
    (hbs : '\\' ∉ cwd) (hp : '\\' ∉ p) : NormAbs (abspath cwd p) := by
  simp only [abspath]
  split
  · rename_i h
    exact ⟨isabs_normpath p h, no_bslash_normpath p hp, normpath_idem_abs p h⟩
  · have h1 : isabs (pjoin cwd p) = true := isabs_pjoin cwd p habs
    have h2 : '\\' ∉ pjoin cwd p := pjoin_no_bslash cwd p hbs hp
    exact ⟨isabs_normpath _ h1, no_bslash_normpath _ h2, normpath_idem_abs _ h1⟩

theorem normalize_path_normAbs (cwd p : String) (habs : isabs cwd.data = true)
    (hbs : '\\' ∉ cwd.data) : NormAbs (normalize_path cwd p).data := by
  have h := abspath_normAbs cwd.data (replSlash p.data) habs hbs
    (replSlash_no_bslash p.data)
  simpa [normalize_path, replSlash_of_no_bslash _ h.2.1] using h

/-- `normalize_path` fixes any string already in canonical form
(independently of the working directory, which is never consulted for an
absolute path). -/
theorem normalize_path_fixed (cwd q : String) (hq : NormAbs q.data) :
    normalize_path cwd q = q := by
  obtain ⟨habs, hbs, hfix⟩ := hq
  show String.mk (replSlash (abspath cwd.data (replSlash q.data))) = q
  rw [replSlash_of_no_bslash q.data hbs]
  simp only [abspath, if_pos habs]
  rw [hfix, replSlash_of_no_bslash q.data hbs]

/-! ## Claim theorems about normalization and containment -/

/-- C4: on any process whose working directory is an absolute
backslash-free path, `normalize_path` is idempotent
(`normalize_path(normalize_path(x)) = normalize_path(x)` for every string
`x`), and it is separator-invariant: a path written with backslashes and
the same path written with forward slashes normalize to the same canonical
string (for any working directory). -/
theorem normalize_path_idem_sepInv (cwd : String)
    (habs : isabs cwd.data = true) (hbs : '\\' ∉ cwd.data) :
    (∀ x : String,
      normalize_path cwd (normalize_path cwd x) = normalize_path cwd x)
    ∧ (∀ c2 x : String,
      normalize_path c2 ⟨replSlash x.data⟩ = normalize_path c2 x) := by
  constructor
  · intro x
    exact normalize_path_fixed cwd (normalize_path cwd x)
      (normalize_path_normAbs cwd x habs hbs)
  · intro c2 x
    show String.mk (replSlash (abspath c2.data (replSlash (replSlash x.data))))
      = String.mk (replSlash (abspath c2.data (replSlash x.data)))
    rw [replSlash_of_no_bslash (replSlash x.data) (replSlash_no_bslash x.data)]

/-- Witness for C4 at the concrete working directory `/` and the concrete
path `a\b` (and its slash form `a/b`). -/
theorem normalize_path_idem_sepInv_witness :
    (isabs "/".data = true ∧ '\\' ∉ "/".data)
    ∧ normalize_path "/" (normalize_path "/" "a\\b") = normalize_path "/" "a\\b"
    ∧ normalize_path "/" "C:\\x\\y" = normalize_path "/" "C:/x/y" := by
  refine ⟨⟨by decide, by decide⟩, ?_, ?_⟩
  · exact (normalize_path_idem_sepInv "/" (by decide) (by decide)).1 "a\\b"
  · have h := (normalize_path_idem_sepInv "/" (by decide) (by decide)).2
      "/" "C:\\x\\y"
    have hdata : (⟨replSlash "C:\\x\\y".data⟩ : String) = "C:/x/y" := by decide
    rw [hdata] at h
    exact h.symm

/-- C10: `is_allowed_path` decides an un-normalized caller-supplied path
exactly as it decides its normalized form, because it normalizes its
argument internally (app.py lines 228-229) and normalization is
idempotent. -/
theorem is_allowed_path_of_normalized (roots : List String) (cwd : String)
    (habs : isabs cwd.data = true) (hbs : '\\' ∉ cwd.data) (p : String) :
    is_allowed_path roots cwd (normalize_path cwd p)
      = is_allowed_path roots cwd p := by
  simp only [is_allowed_path]
  rw [normalize_path_fixed cwd (normalize_path cwd p)
    (normalize_path_normAbs cwd p habs hbs)]

/-- Witness for C10 with roots `[/a]`, working directory `/`, and the
relative, backslash-written path `a\b`. -/
theorem is_allowed_path_of_normalized_witness :
    (isabs "/".data = true ∧ '\\' ∉ "/".data)
    ∧ is_allowed_path ["/a"] "/" (normalize_path "/" "a\\b")
      = is_allowed_path ["/a"] "/" "a\\b" :=
  ⟨⟨by decide, by decide⟩,
    is_allowed_path_of_normalized ["/a"] "/" (by decide) (by decide) "a\\b"⟩

/-- C1 (code bug witness): with configured root `/a/b`, the sibling path
`/a/bb/x` — which shares only a raw string prefix with the root and is not
a segment-wise descendant of it — is ACCEPTED by `is_allowed_path`,
because app.py line 238 compares with `str.startswith` on the raw
normalized strings.  The claim (and spec sections 4.2, 8 and 9) require
the result to be false here. -/
theorem is_allowed_path_accepts_sibling :
    is_allowed_path ["/a/b"] "/" "/a/bb/x" = true := by decide

/-! ## Claim theorems about the read operations -/

/-- C5: `read_file` and `read_file_binary` run the same checks in the
same short-circuit order — containment (AccessDenied), then regular-file
(NotAFile), then extension (DisallowedExtension) — so an existing allowed
file whose lowercased extension is not configured fails with
DisallowedExtension whatever its content (the content accessors of `fs`
are arbitrary in the last conjunct). -/
theorem read_checks_order (roots exts : List String) (cwd : String)
    (fs : FileFS) (p : String) :
    (is_allowed_path roots cwd (normalize_path cwd p) = false →
      read_file roots exts cwd fs p = .error .accessDenied
      ∧ read_file_binary roots exts cwd fs p = .err .accessDenied)
    ∧ (is_allowed_path roots cwd (normalize_path cwd p) = true →
        fs.isfile (normalize_path cwd p) = false →
      read_file roots exts cwd fs p = .error .notAFile
      ∧ read_file_binary roots exts cwd fs p = .err .notAFile)
    ∧ (is_allowed_path roots cwd (normalize_path cwd p) = true →
        fs.isfile (normalize_path cwd p) = true →
        splitext_ext (normalize_path cwd p) ∉ exts →
      read_file roots exts cwd fs p = .error .disallowedExtension
      ∧ read_file_binary roots exts cwd fs p = .err .disallowedExtension) := by
  refine ⟨fun h => ?_, fun h1 h2 => ?_, fun h1 h2 h3 => ?_⟩ <;>
    constructor <;> simp [read_file, read_file_binary, *]

/-- Witness for C5 at the third (extension) stage: `/data/a.bin` exists,
is allowed, and `.bin` is not among the configured extensions. -/
theorem read_checks_order_witness :
    (is_allowed_path ["/data"] "/" (normalize_path "/" "/data/a.bin") = true
      ∧ scenarioFS.isfile (normalize_path "/" "/data/a.bin") = true
      ∧ splitext_ext (normalize_path "/" "/data/a.bin") ∉ [".txt"])
    ∧ read_file ["/data"] [".txt"] "/" scenarioFS "/data/a.bin"
        = .error .disallowedExtension
    ∧ read_file_binary ["/data"] [".txt"] "/" scenarioFS "/data/a.bin"
        = .err .disallowedExtension :=
  ⟨⟨by decide, by decide, by decide⟩,
    (read_checks_order ["/data"] [".txt"] "/" scenarioFS "/data/a.bin").2.2
      (by decide) (by decide) (by decide)⟩

/-- C3 counterexample: `read_file` on a denied path does NOT return a
structured error value — it raises `ValueError` (app.py line 562, and its
docstring documents `Raises: ValueError`).  `Except.error` is the raised
exception leaving the function. -/
theorem read_file_raises_on_denied :
    read_file ["/data"] [".txt"] "/" scenarioFS "/other/a.txt"
      = .error .accessDenied := rfl

/-- C3 amended: on a denied path every exposed operation except
`read_file` returns its failure as a structured result value
(`read_file_binary`, `list_directory`, `get_resource`, `list_resources`
all return error-shaped values and never raise); `read_file` alone
signals the failure by raising `ValueError`, which only the RPC framework
outside the program converts to a structured response. -/
theorem structured_failures_except_read_file (roots exts : List String)
    (cwd : String) (fsF : FileFS) (fsD : DirFS) (fsS : StatFS)
    (tree : Option (List FSNode)) (p : String) (rp : Bool) (batch : Nat)
    (h : is_allowed_path roots cwd (normalize_path cwd p) = false) :
    read_file roots exts cwd fsF p = .error .accessDenied
    ∧ read_file_binary roots exts cwd fsF p = .err .accessDenied
    ∧ list_directory roots cwd fsD p rp batch
        = (if rp then .errProgress .permissionCheck
           else .errList .permissionCheck)
    ∧ get_resource roots exts cwd fsS p = .err .accessDenied
    ∧ list_resources roots exts cwd p tree rp batch = .err := by
  refine ⟨?_, ?_, ?_, ?_, ?_⟩ <;>
    simp [read_file, read_file_binary, list_directory, get_resource,
      list_resources, h]

/-- Witness for the amended C3 at the denied path `/other/a.txt`. -/
theorem structured_failures_except_read_file_witness :
    (is_allowed_path ["/data"] "/" (normalize_path "/" "/other/a.txt")
        = false)
    ∧ read_file ["/data"] [".txt"] "/" scenarioFS "/other/a.txt"
        = .error .accessDenied
    ∧ read_file_binary ["/data"] [".txt"] "/" scenarioFS "/other/a.txt"
        = .err .accessDenied
    ∧ list_directory ["/data"] "/" scenarioDirFS "/other/a.txt" true 100
        = .errProgress .permissionCheck
    ∧ get_resource ["/data"] [".txt"] "/" scenarioStatFS "/other/a.txt"
        = .err .accessDenied
    ∧ list_resources ["/data"] [".txt"] "/" "/other/a.txt" none true 100
        = .err := by
  have h := structured_failures_except_read_file ["/data"] [".txt"] "/"
    scenarioFS scenarioDirFS scenarioStatFS none "/other/a.txt" true 100
    (by decide)
  exact ⟨by decide, h.1, h.2.1, h.2.2.1, h.2.2.2.1, h.2.2.2.2⟩

/-! ## Claim theorems about base64 and read_file_binary -/

theorem b64Val_b64Char : ∀ n, n < 64 → b64Val (b64Char n) = n := by decide

theorem b64Char_ne_pad : ∀ n, n < 64 → ¬ b64Char n = '=' := by decide

/-- Decoding inverts `base64.b64encode` on any byte list. -/
theorem b64decode_encode : ∀ (bs : List Nat), (∀ x ∈ bs, x < 256) →
    b64decode (b64encode bs) = bs
  | [], _ => rfl
  | [a], h => by
    have ha : a < 256 := h a (by simp)
    have h1 : a / 4 < 64 := by omega
    have h2 : a % 4 * 16 < 64 := by omega
    simp only [b64encode, b64decode, eq_self_iff_true, if_true]
    rw [b64Val_b64Char _ h1, b64Val_b64Char _ h2]
    congr 1
    omega
  | [a, b], h => by
    have ha : a < 256 := h a (by simp)
    have hb : b < 256 := h b (by simp)
    have h1 : a / 4 < 64 := by omega
    have h2 : a % 4 * 16 + b / 16 < 64 := by omega
    have h3 : b % 16 * 4 < 64 := by omega
    simp only [b64encode, b64decode, eq_self_iff_true, if_true]
    rw [if_neg (b64Char_ne_pad _ h3),
      b64Val_b64Char _ h1, b64Val_b64Char _ h2, b64Val_b64Char _ h3]
    congr 1
    · omega
    congr 1
    omega
  | a :: b :: c :: rest, h => by
    have ha : a < 256 := h a (by simp)
    have hb : b < 256 := h b (by simp)
    have hc : c < 256 := h c (by simp)
    have h1 : a / 4 < 64 := by omega
    have h2 : a % 4 * 16 + b / 16 < 64 := by omega
    have h3 : b % 16 * 4 + c / 64 < 64 := by omega
    have h4 : c % 64 < 64 := by omega
    have ih := b64decode_encode rest (fun x hx => h x (by simp [hx]))
    simp only [b64encode, b64decode]
    rw [if_neg (b64Char_ne_pad _ h3), if_neg (b64Char_ne_pad _ h4),
      b64Val_b64Char _ h1, b64Val_b64Char _ h2, b64Val_b64Char _ h3,
      b64Val_b64Char _ h4, ih]
    congr 1
    · omega
    congr 1
    · omega
    congr 1
    omega

/-- C6 counterexample: in the spec scenario (roots `[/data]`, extensions
`[.txt]`), `read_file_binary` on the existing file `/data/a.bin` does NOT
return base64 content — the shared extension check (app.py 744-746)
rejects `.bin` first, exactly as it does for `read_file`. -/
theorem read_file_binary_scenario_bin_denied :
    read_file_binary ["/data"] [".txt"] "/" scenarioFS "/data/a.bin"
      = .err .disallowedExtension := rfl

/-- C6 amended: on a file that passes the containment, regular-file and
extension checks and whose bytes are readable, `read_file_binary` returns
the bytes re-encoded as base64 text tagged `base64`, and decoding that
text yields exactly the file's bytes.  (The spec scenario's
`/data/a.bin` call reaches this case only when `.bin` is added to the
extension set.) -/
theorem read_file_binary_roundtrip (roots exts : List String)
    (cwd : String) (fs : FileFS) (p : String) (data : List Nat)
    (hallow : is_allowed_path roots cwd (normalize_path cwd p) = true)
    (hfile : fs.isfile (normalize_path cwd p) = true)
    (hext : splitext_ext (normalize_path cwd p) ∈ exts)
    (hdata : fs.readBytes (normalize_path cwd p) = some data)
    (hbytes : ∀ x ∈ data, x < 256) :
    read_file_binary roots exts cwd fs p = .ok ⟨b64encode data⟩ "base64"
    ∧ b64decode (b64encode data) = data := by
  constructor
  · simp [read_file_binary, hallow, hfile, hext, hdata]
  · exact b64decode_encode data hbytes

/-- Witness for the amended C6: with `.bin` permitted, reading
`/data/a.bin` (bytes 0, 1, 2) yields base64 that decodes back to the
bytes. -/
theorem read_file_binary_roundtrip_witness :
    (is_allowed_path ["/data"] "/" (normalize_path "/" "/data/a.bin") = true
      ∧ scenarioFS.isfile (normalize_path "/" "/data/a.bin") = true
      ∧ splitext_ext (normalize_path "/" "/data/a.bin") ∈ [".txt", ".bin"]
      ∧ scenarioFS.readBytes (normalize_path "/" "/data/a.bin")
          = some [0, 1, 2])
    ∧ read_file_binary ["/data"] [".txt", ".bin"] "/" scenarioFS
        "/data/a.bin" = .ok ⟨b64encode [0, 1, 2]⟩ "base64"
    ∧ b64decode (b64encode [0, 1, 2]) = [0, 1, 2] :=
  ⟨⟨by decide, by decide, by decide, by decide⟩,
    read_file_binary_roundtrip ["/data"] [".txt", ".bin"] "/" scenarioFS
      "/data/a.bin" [0, 1, 2] (by decide) (by decide) (by decide)
      (by decide) (by decide)⟩

/-! ## Claim theorems about init and empty configuration -/

/-- C8: with an empty configured root set, `is_allowed_path` denies every
path (app.py 225-226), and `init` returns — not raises — an error report
(`isError = true`) with an empty accessible-directories list (app.py
261-272). -/
theorem empty_roots_denies_all :
    (∀ cwd p : String, is_allowed_path [] cwd p = false)
    ∧ ∀ (exts : List String) (fs : InitFS),
        (init [] exts fs).isError = true
        ∧ (init [] exts fs).accessible_dirs = [] := by
  exact ⟨fun cwd p => rfl, fun exts fs => ⟨rfl, rfl⟩⟩

/-! ## Claim theorems about file metadata (C9) -/

/-- C9: classification of an existing allowed regular file with a
permitted extension succeeds with actions `[read, read_binary]` whatever
the stat outcome; when stat fails the two metadata fields degrade to
absent, and when it succeeds `size` is the byte count and `modified` is
the UTC ISO-8601 rendering of `st_mtime` with a `Z` suffix.
`fileResource` is the descriptor builder shared by `get_resource`
(app.py 712-729) and the `list_resources` walk (app.py 641-658). -/
theorem file_metadata_degrades (roots exts : List String) (cwd : String)
    (fs : StatFS) (p : String)
    (hallow : is_allowed_path roots cwd (normalize_path cwd p) = true)
    (hex : fs.pexists (normalize_path cwd p) = true)
    (hdir : fs.isdir (normalize_path cwd p) = false)
    (hfile : fs.isfile (normalize_path cwd p) = true)
    (hext : splitext_ext (basename (normalize_path cwd p)) ∈ exts) :
    get_resource roots exts cwd fs p
      = .res (fileResource (normalize_path cwd p)
          (basename (normalize_path cwd p)) (fs.stat (normalize_path cwd p)))
    ∧ (∀ pn n : String,
        (fileResource pn n none).size = none
        ∧ (fileResource pn n none).modified = none
        ∧ (fileResource pn n none).actions = ["read", "read_binary"])
    ∧ (∀ (pn n : String) (st : FileStat),
        (fileResource pn n (some st)).size = some st.st_size
        ∧ (fileResource pn n (some st)).modified
            = some (isoformatUTC st.st_mtime ++ "Z")
        ∧ (isoformatUTC st.st_mtime ++ "Z").data.getLast? = some 'Z'
        ∧ (fileResource pn n (some st)).actions = ["read", "read_binary"]) := by
  refine ⟨?_, fun pn n => ⟨rfl, rfl, rfl⟩, fun pn n st => ⟨rfl, rfl, ?_, rfl⟩⟩
  · simp [get_resource, hallow, hex, hdir, hfile, hext]
  · rw [String.data_append, show "Z".data = ['Z'] from rfl]
    exact List.getLast?_concat _

/-- Witness for C9 on `/data/broken.txt`, whose stat call fails. -/
theorem file_metadata_degrades_witness :
    (is_allowed_path ["/data"] "/" (normalize_path "/" "/data/broken.txt")
        = true
      ∧ scenarioStatFS.pexists (normalize_path "/" "/data/broken.txt") = true
      ∧ scenarioStatFS.isdir (normalize_path "/" "/data/broken.txt") = false
      ∧ scenarioStatFS.isfile (normalize_path "/" "/data/broken.txt") = true
      ∧ splitext_ext (basename (normalize_path "/" "/data/broken.txt"))
          ∈ [".txt"])
    ∧ get_resource ["/data"] [".txt"] "/" scenarioStatFS "/data/broken.txt"
        = .res (fileResource (normalize_path "/" "/data/broken.txt")
            (basename (normalize_path "/" "/data/broken.txt"))
            (scenarioStatFS.stat (normalize_path "/" "/data/broken.txt"))) :=
  ⟨⟨by decide, by decide, by decide, by decide, by decide⟩,
    (file_metadata_degrades ["/data"] [".txt"] "/" scenarioStatFS
      "/data/broken.txt" (by decide) (by decide) (by decide) (by decide)
      (by decide)).1⟩

/-! ## Claim theorems about enumeration progress (C2) -/

theorem mem_filterMap_succ_range (P : Nat → Prop) [DecidablePred P]
    (total j : Nat) :
    j ∈ (List.range total).filterMap
        (fun i => if P (i + 1) then some (i + 1) else none)
      ↔ 1 ≤ j ∧ j ≤ total ∧ P j := by
  simp only [List.mem_filterMap, List.mem_range]
  constructor
  · rintro ⟨i, hi, hif⟩
    split at hif
    · rename_i hp
      obtain rfl : i + 1 = j := by simpa using hif
      exact ⟨by omega, by omega, hp⟩
    · simp at hif
  · rintro ⟨h1, h2, hp⟩
    refine ⟨j - 1, by omega, ?_⟩
    have hj : j - 1 + 1 = j := by omega
    rw [hj, if_pos hp]

theorem pairwise_filterMap_succ_range (P : Nat → Prop) [DecidablePred P]
    (total : Nat) :
    List.Pairwise (· < ·) ((List.range total).filterMap
      (fun i => if P (i + 1) then some (i + 1) else none)) := by
  refine List.Pairwise.filterMap _ ?_ (List.pairwise_lt_range total)
  intro a b hab c hc d hd
  split at hc <;> split at hd <;> simp_all
  omega

/-- C2 counterexample: a list_resources run over a single allowed file
with the default batch size 100 returns `total_items = 1` and an EMPTY
checkpoint sequence — no checkpoint is emitted on the final item, so the
last checkpoint's `processed` does not equal the final item count. -/
theorem list_resources_no_final_checkpoint :
    list_resources ["/data"] [".txt"] "/" "/data"
        (some [.file "a.txt" none]) true 100
      = .okProgress [fileResource "/data/a.txt" "a.txt" none] 1 []
    ∧ ¬ (([] : List Nat).getLast? = some 1) := ⟨rfl, by decide⟩

/-- C2 amended: list_directory's checkpoints (`ldUpdates`) are emitted at
every batch-th item AND unconditionally on the final item, are strictly
increasing in `processed`, and the last checkpoint's `processed` equals
the final returned item count.  list_resources' checkpoints
(`lrUpdates`), in contrast, are emitted ONLY at exact multiples of the
batch size (no unconditional final emission); they are strictly
increasing and bounded by the final count, and the last one equals the
final returned `total_items` only when that count is a positive multiple
of the batch size. -/
theorem enumeration_checkpoints (total batch : Nat) :
    (∀ j, j ∈ ldUpdates total batch
      ↔ 1 ≤ j ∧ j ≤ total ∧ (j % batch = 0 ∨ j = total))
    ∧ List.Pairwise (· < ·) (ldUpdates total batch)
    ∧ (0 < total → (ldUpdates total batch).getLast? = some total)
    ∧ (∀ j, j ∈ lrUpdates total batch
      ↔ 1 ≤ j ∧ j ≤ total ∧ j % batch = 0)
    ∧ List.Pairwise (· < ·) (lrUpdates total batch)
    ∧ (0 < total → ¬ total % batch = 0 →
        ¬ (lrUpdates total batch).getLast? = some total) := by
  refine ⟨?_, ?_, ?_, ?_, ?_, ?_⟩
  · exact fun j =>
      mem_filterMap_succ_range (fun j => j % batch = 0 ∨ j = total) total j
  · exact pairwise_filterMap_succ_range
      (fun j => j % batch = 0 ∨ j = total) total
  · intro htotal
    obtain ⟨t, rfl⟩ : ∃ t, total = t + 1 := ⟨total - 1, by omega⟩
    have hsplit : List.range (t + 1) = List.range t ++ [t] :=
      List.range_succ t
    rw [ldUpdates, hsplit, List.filterMap_append]
    have hlast : List.filterMap
        (fun i => if (i + 1) % batch = 0 ∨ i + 1 = t + 1
          then some (i + 1) else none) [t] = [t + 1] := by
      simp
    rw [hlast]
    exact List.getLast?_concat _
  · exact fun j => mem_filterMap_succ_range (fun j => j % batch = 0) total j
  · exact pairwise_filterMap_succ_range (fun j => j % batch = 0) total
  · intro htotal hmod hlast
    have hm : total ∈ lrUpdates total batch := by
      have hgl : total ∈ (lrUpdates total batch).getLast? := by
        rw [Option.mem_def, hlast]
      obtain ⟨hne, heq⟩ := List.mem_getLast?_eq_getLast hgl
      have hmem := List.getLast_mem hne
      rw [← heq] at hmem
      exact hmem
    exact hmod
      ((mem_filterMap_succ_range (fun j => j % batch = 0) total total).mp
        hm).2.2

/-- Witness for the amended C2 at total 5, batch 2: list_directory
checkpoints are 2, 4, 5 (final item unconditionally); list_resources
checkpoints are just 2, 4 — the final count 5 never appears. -/
theorem enumeration_checkpoints_witness :
    (0 < 5 ∧ ¬ 5 % 2 = 0)
    ∧ (4 ∈ ldUpdates 5 2 ↔ 1 ≤ 4 ∧ 4 ≤ 5 ∧ (4 % 2 = 0 ∨ 4 = 5))
    ∧ (ldUpdates 5 2).getLast? = some 5
    ∧ ¬ (lrUpdates 5 2).getLast? = some 5 := by
  have h := enumeration_checkpoints 5 2
  exact ⟨⟨by decide, by decide⟩, h.1 4, h.2.2.1 (by decide),
    h.2.2.2.2.2 (by decide) (by decide)⟩

/-! ## Canonical joining (toward C7) -/

theorem joinSeg_append_last (gs : List (List Char)) (g : List Char)
    (h : gs ≠ []) : joinSeg (gs ++ [g]) = joinSeg gs ++ '/' :: g := by
  induction gs with
  | nil => exact absurd rfl h
  | cons x rest ih =>
    cases rest with
    | nil => rfl
    | cons y rest2 =>
      have ih' := ih (by simp)
      simp only [List.cons_append] at ih' ⊢
      rw [joinSeg_cons₂, ih', joinSeg_cons₂]
      simp

theorem pjoin_canon (k : Nat) (hk1 : 1 ≤ k) (comps : List (List Char))
    (h : ∀ g ∈ comps, Plain g) (n : List Char) (hn : Plain n) :
    pjoin (List.replicate k '/' ++ joinSeg comps) n
      = List.replicate k '/' ++ joinSeg (comps ++ [n]) := by
  obtain ⟨c, cs, rfl⟩ : ∃ c cs, n = c :: cs := by
    cases n with
    | nil => exact absurd rfl hn.1
    | cons c cs => exact ⟨c, cs, rfl⟩
  have hc : c ≠ '/' := fun hc => hn.2.2.2 (by simp [hc])
  have hnabs : ¬ (c :: cs).take 1 = ['/'] := by simp [hc]
  by_cases hcomps : comps = []
  · subst hcomps
    have hlast : (List.replicate k '/' ++
        joinSeg ([] : List (List Char))).getLast? = some '/' := by
      cases k with
      | zero => omega
      | succ m =>
        simp only [joinSeg, List.append_nil, List.replicate_succ' m '/']
        exact List.getLast?_concat _
    simp only [pjoin, if_neg hnabs, if_pos (Or.inr hlast)]
    simp [joinSeg]
  · rcases List.eq_nil_or_concat comps with h' | ⟨gs, g, hgs⟩
    · exact absurd h' hcomps
    have hgconcat : comps = gs ++ [g] := by simpa using hgs
    subst hgconcat
    have hg : Plain g := h g (by simp)
    have hgne : g ≠ [] := hg.1
    have hglast : g.getLast? = some (g.getLast hgne) :=
      List.getLast?_eq_getLast g hgne
    have hgc : g.getLast hgne ≠ '/' :=
      fun hcc => hg.2.2.2 (hcc ▸ List.getLast_mem hgne)
    have hjoin_ne : joinSeg (gs ++ [g]) ≠ [] := by
      cases gs with
      | nil => simpa [joinSeg] using hgne
      | cons x rest =>
        rw [joinSeg_append_last _ g (by simp)]
        simp
    have hlast2 : (List.replicate k '/' ++ joinSeg (gs ++ [g])).getLast?
        = some (g.getLast hgne) := by
      rw [List.getLast?_append_of_ne_nil _ hjoin_ne]
      cases gs with
      | nil =>
        simpa [joinSeg] using hglast
      | cons x rest =>
        rw [joinSeg_append_last _ g (by simp),
          List.getLast?_append_of_ne_nil _ (by simp : '/' :: g ≠ []),
          show ('/' :: g) = ['/'] ++ g from rfl,
          List.getLast?_append_of_ne_nil _ hgne]
        exact hglast
    have hne3 : ¬ (List.replicate k '/' ++ joinSeg (gs ++ [g]) = []
        ∨ (List.replicate k '/' ++ joinSeg (gs ++ [g])).getLast?
            = some '/') := by
      push_neg
      constructor
      · cases k with
        | zero => omega
        | succ m => simp [List.replicate]
      · rw [hlast2]
        simp [hgc]
    simp only [pjoin, if_neg hnabs, if_neg hne3]
    rw [joinSeg_append_last (gs ++ [g]) (c :: cs) (by simp)]
    simp

/-- Joining a plain name onto a canonical absolute path with
`os.path.join` yields a canonical absolute path that properly extends
it. -/
theorem normAbs_pjoinS (p n : String) (hp : NormAbs p.data)
    (hn : Plain n.data) (hnb : '\\' ∉ n.data) :
    NormAbs (pjoinS p n).data
    ∧ ∃ t, t ≠ [] ∧ (pjoinS p n).data = p.data ++ t := by
  obtain ⟨habs, hbs, hfix⟩ := hp
  obtain ⟨k, comps, hk1, hk2, hplain, heq⟩ := normpath_abs_form p.data habs
  rw [hfix] at heq
  have hjoin : (pjoinS p n).data
      = List.replicate k '/' ++ joinSeg (comps ++ [n.data]) := by
    show pjoin p.data n.data = _
    rw [heq, pjoin_canon k hk1 comps hplain n.data hn]
  have hplain2 : ∀ g ∈ comps ++ [n.data], Plain g := by
    intro g hg
    rcases List.mem_append.mp hg with h' | h'
    · exact hplain g h'
    · simpa using (List.mem_singleton.mp h') ▸ hn
  refine ⟨⟨?_, ?_, ?_⟩, ?_⟩
  · rw [hjoin]
    cases k with
    | zero => omega
    | succ m => simp [isabs, List.replicate]
  · show '\\' ∉ pjoin p.data n.data
    exact pjoin_no_bslash p.data n.data hbs hnb
  · rw [hjoin]
    exact normpath_canon k hk1 hk2 (comps ++ [n.data]) hplain2
  · by_cases hcomps : comps = []
    · refine ⟨n.data, hn.1, ?_⟩
      rw [hjoin, heq, hcomps]
      simp [joinSeg]
    · refine ⟨'/' :: n.data, by simp, ?_⟩
      rw [hjoin, heq, joinSeg_append_last comps n.data hcomps]
      simp

/-- Any canonical absolute path extending a configured root is allowed
(by the raw string-prefix containment the code implements). -/
theorem is_allowed_of_normAbs_extends (roots : List String) (cwd : String)
    (b : String) (hb : b ∈ roots) (q : String) (hq : NormAbs q.data)
    (hpre : b.data <+: q.data) :
    is_allowed_path roots cwd q = true := by
  have hne : roots ≠ [] := List.ne_nil_of_mem hb
  simp only [is_allowed_path, if_neg hne]
  rw [normalize_path_fixed cwd q hq, List.any_eq_true]
  exact ⟨b, hb, by rw [List.isPrefixOf_iff_prefix]; exact hpre⟩

/-! ## Walk characterization under well-formedness (toward C7) -/

theorem wfForest_cons (c : FSNode) (rest : List FSNode)
    (h : wfForest (c :: rest) = true) :
    wfNode c = true ∧ wfForest rest = true := by
  simpa [wfForest, Bool.and_eq_true] using h

theorem wfNode_dir (d : String) (cs : List FSNode)
    (h : wfNode (.dir d cs) = true) :
    (Plain d.data ∧ '\\' ∉ d.data) ∧ wfForest cs = true
      ∧ (names cs).Nodup := by
  simp only [wfNode, Bool.and_eq_true, decide_eq_true_eq] at h
  exact ⟨by simpa [plainNameB] using h.1.1, h.1.2, h.2⟩

theorem wfNode_file (f : String) (st : Option FileStat)
    (h : wfNode (.file f st) = true) : Plain f.data ∧ '\\' ∉ f.data := by
  simpa [wfNode, plainNameB] using h

theorem extOKForest_cons (exts : List String) (c : FSNode)
    (rest : List FSNode) (h : extOKForest exts (c :: rest) = true) :
    extOKNode exts c = true ∧ extOKForest exts rest = true := by
  simpa [extOKForest, Bool.and_eq_true] using h

theorem walkDirs_map_id (roots : List String) (cwd b : String)
    (hb : b ∈ roots) :
    ∀ (cs : List FSNode) (r : String), NormAbs r.data → b.data <+: r.data →
      wfForest cs = true →
      (walkDirs roots cwd r cs).map Resource.id
        = (dirNames cs).map (fun n => pjoinS r n)
  | [], r, _, _, _ => rfl
  | .file f st :: rest, r, h1, h2, h3 => by
    obtain ⟨_, h3'⟩ := wfForest_cons _ _ h3
    simpa [walkDirs, dirNames] using
      walkDirs_map_id roots cwd b hb rest r h1 h2 h3'
  | .dir d cs2 :: rest, r, h1, h2, h3 => by
    obtain ⟨hnode, h3'⟩ := wfForest_cons _ _ h3
    obtain ⟨hd, _, _⟩ := wfNode_dir d cs2 hnode
    obtain ⟨hNA, t, htne, hext⟩ := normAbs_pjoinS r d h1 hd.1 hd.2
    have hfix : normalize_path cwd (pjoinS r d) = pjoinS r d :=
      normalize_path_fixed cwd _ hNA
    have hallow : is_allowed_path roots cwd (pjoinS r d) = true := by
      refine is_allowed_of_normAbs_extends roots cwd b hb _ hNA ?_
      rw [hext]
      exact h2.trans (List.prefix_append _ _)
    have ihr := walkDirs_map_id roots cwd b hb rest r h1 h2 h3'
    rw [show walkDirs roots cwd r (.dir d cs2 :: rest)
        = dirResource (pjoinS r d) d :: walkDirs roots cwd r rest from by
      simp [walkDirs, hfix, hallow]]
    rw [show dirNames (.dir d cs2 :: rest) = d :: dirNames rest from rfl]
    simp only [List.map_cons, ihr]
    rfl

theorem walkFiles_map_id (roots exts : List String) (cwd b : String)
    (hb : b ∈ roots) :
    ∀ (cs : List FSNode) (r : String), NormAbs r.data → b.data <+: r.data →
      wfForest cs = true → extOKForest exts cs = true →
      (walkFiles roots exts cwd r cs).map Resource.id
        = (fileNames cs).map (fun n => pjoinS r n)
  | [], r, _, _, _, _ => rfl
  | .dir d cs2 :: rest, r, h1, h2, h3, h4 => by
    obtain ⟨_, h3'⟩ := wfForest_cons _ _ h3
    obtain ⟨_, h4'⟩ := extOKForest_cons exts _ _ h4
    simpa [walkFiles, fileNames] using
      walkFiles_map_id roots exts cwd b hb rest r h1 h2 h3' h4'
  | .file f st :: rest, r, h1, h2, h3, h4 => by
    obtain ⟨hnode, h3'⟩ := wfForest_cons _ _ h3
    obtain ⟨hcont, h4'⟩ := extOKForest_cons exts _ _ h4
    have hf := wfNode_file f st hnode
    obtain ⟨hNA, t, htne, hext⟩ := normAbs_pjoinS r f h1 hf.1 hf.2
    have hfix : normalize_path cwd (pjoinS r f) = pjoinS r f :=
      normalize_path_fixed cwd _ hNA
    have hallow : is_allowed_path roots cwd (pjoinS r f) = true := by
      refine is_allowed_of_normAbs_extends roots cwd b hb _ hNA ?_
      rw [hext]
      exact h2.trans (List.prefix_append _ _)
    have hcont' : extOKNode exts (.file f st) = true := hcont
    have hcont2 : splitext_ext f ∈ exts := by
      simpa [extOKNode] using hcont'
    have ihr := walkFiles_map_id roots exts cwd b hb rest r h1 h2 h3' h4'
    rw [show walkFiles roots exts cwd r (.file f st :: rest)
        = fileResource (pjoinS r f) f st
            :: walkFiles roots exts cwd r rest from by
      simp [walkFiles, hfix, hallow, hcont2]]
    rw [show fileNames (.file f st :: rest) = f :: fileNames rest from rfl]
    simp only [List.map_cons, ihr]
    rfl

theorem walkSubs_map_id (roots exts : List String) (cwd b : String)
    (hb : b ∈ roots) :
    ∀ (cs : List FSNode) (r : String), NormAbs r.data → b.data <+: r.data →
      wfForest cs = true → extOKForest exts cs = true →
      (walkSubs roots exts cwd r cs).map Resource.id
        = (relSubs cs).map (appendSegs r)
  | [], r, _, _, _, _ => rfl
  | .file f st :: rest, r, h1, h2, h3, h4 => by
    obtain ⟨_, h3'⟩ := wfForest_cons _ _ h3
    obtain ⟨_, h4'⟩ := extOKForest_cons exts _ _ h4
    simpa [walkSubs, walkSubOne, relSubs, relSubOne] using
      walkSubs_map_id roots exts cwd b hb rest r h1 h2 h3' h4'
  | .dir d cs2 :: rest, r, h1, h2, h3, h4 => by
    obtain ⟨hnode, h3'⟩ := wfForest_cons _ _ h3
    obtain ⟨hext2, h4'⟩ := extOKForest_cons exts _ _ h4
    obtain ⟨hd, hwf2, _⟩ := wfNode_dir d cs2 hnode
    have hext2' : extOKForest exts cs2 = true := by
      simpa [extOKNode] using hext2
    obtain ⟨hNA, t, htne, hext⟩ := normAbs_pjoinS r d h1 hd.1 hd.2
    have hpre2 : b.data <+: (pjoinS r d).data := by
      rw [hext]
      exact h2.trans (List.prefix_append _ _)
    have e1 := walkDirs_map_id roots cwd b hb cs2 (pjoinS r d) hNA hpre2 hwf2
    have e2 := walkFiles_map_id roots exts cwd b hb cs2 (pjoinS r d) hNA
      hpre2 hwf2 hext2'
    have e3 := walkSubs_map_id roots exts cwd b hb cs2 (pjoinS r d) hNA
      hpre2 hwf2 hext2'
    have e4 := walkSubs_map_id roots exts cwd b hb rest r h1 h2 h3' h4'
    rw [show walkSubs roots exts cwd r (.dir d cs2 :: rest)
        = (walkDirs roots cwd (pjoinS r d) cs2
            ++ walkFiles roots exts cwd (pjoinS r d) cs2
            ++ walkSubs roots exts cwd (pjoinS r d) cs2)
          ++ walkSubs roots exts cwd r rest from rfl]
    rw [show relSubs (.dir d cs2 :: rest)
        = (((dirNames cs2).map (fun n => [n])
            ++ (fileNames cs2).map (fun n => [n])
            ++ relSubs cs2).map (fun segs => d :: segs))
          ++ relSubs rest from rfl]
    simp only [List.map_append, List.map_map, e1, e2, e3, e4]
    rfl

theorem walkResources_map_id (roots exts : List String) (cwd b : String)
    (hb : b ∈ roots) (cs : List FSNode) (r : String)
    (h1 : NormAbs r.data) (h2 : b.data <+: r.data)
    (h3 : wfForest cs = true) (h4 : extOKForest exts cs = true) :
    (walkResources roots exts cwd r cs).map Resource.id
      = (relPaths cs).map (appendSegs r) := by
  simp only [walkResources, relPaths, List.map_append]
  rw [walkDirs_map_id roots cwd b hb cs r h1 h2 h3,
    walkFiles_map_id roots exts cwd b hb cs r h1 h2 h3 h4,
    walkSubs_map_id roots exts cwd b hb cs r h1 h2 h3 h4]
  simp only [List.map_map]
  rfl

/-! ## Relative-path lists: counting, shape, distinctness (toward C7) -/

theorem dirNames_append_fileNames_perm :
    ∀ cs : List FSNode, (dirNames cs ++ fileNames cs).Perm (names cs)
  | [] => by simp [dirNames, fileNames, names]
  | .file f st :: rest => by
    have ih := dirNames_append_fileNames_perm rest
    rw [show dirNames (.file f st :: rest) = dirNames rest from rfl,
      show fileNames (.file f st :: rest) = f :: fileNames rest from rfl,
      show names (.file f st :: rest) = f :: names rest from rfl]
    exact List.perm_middle.trans (ih.cons f)
  | .dir d cs2 :: rest => by
    have ih := dirNames_append_fileNames_perm rest
    rw [show dirNames (.dir d cs2 :: rest) = d :: dirNames rest from rfl,
      show fileNames (.dir d cs2 :: rest) = fileNames rest from rfl,
      show names (.dir d cs2 :: rest) = d :: names rest from rfl,
      List.cons_append]
    exact ih.cons d

theorem mem_relSubs : ∀ (cs : List FSNode) (x : List String),
    x ∈ relSubs cs →
    ∃ d cs2 t, FSNode.dir d cs2 ∈ cs ∧ x = d :: t ∧ t ∈ relPaths cs2
  | [], x, hx => by simp [relSubs] at hx
  | .file f st :: rest, x, hx => by
    rw [show relSubs (.file f st :: rest)
      = relSubOne (.file f st) ++ relSubs rest from rfl] at hx
    simp only [relSubOne, List.nil_append] at hx
    obtain ⟨d, cs2, t, hmem, hx1, hx2⟩ := mem_relSubs rest x hx
    exact ⟨d, cs2, t, List.mem_cons_of_mem _ hmem, hx1, hx2⟩
  | .dir d cs2 :: rest, x, hx => by
    rw [show relSubs (.dir d cs2 :: rest)
      = relSubOne (.dir d cs2) ++ relSubs rest from rfl] at hx
    rcases List.mem_append.mp hx with h | h
    · simp only [relSubOne] at h
      obtain ⟨segs, hsegs, rfl⟩ := List.mem_map.mp h
      exact ⟨d, cs2, segs, by simp, rfl, by simpa [relPaths] using hsegs⟩
    · obtain ⟨d', cs2', t, hmem, hx1, hx2⟩ := mem_relSubs rest x h
      exact ⟨d', cs2', t, List.mem_cons_of_mem _ hmem, hx1, hx2⟩

theorem mem_relPaths (cs : List FSNode) (x : List String)
    (hx : x ∈ relPaths cs) :
    (∃ n, (n ∈ dirNames cs ∨ n ∈ fileNames cs) ∧ x = [n])
    ∨ x ∈ relSubs cs := by
  simp only [relPaths, List.mem_append] at hx
  rcases hx with (h | h) | h
  · obtain ⟨n, hn, rfl⟩ := List.mem_map.mp h
    exact Or.inl ⟨n, Or.inl hn, rfl⟩
  · obtain ⟨n, hn, rfl⟩ := List.mem_map.mp h
    exact Or.inl ⟨n, Or.inr hn, rfl⟩
  · exact Or.inr h

theorem mem_relPaths_ne_nil (cs : List FSNode) (x : List String)
    (hx : x ∈ relPaths cs) : x ≠ [] := by
  rcases mem_relPaths cs x hx with ⟨n, _, rfl⟩ | h
  · simp
  · obtain ⟨d, cs2, t, _, rfl, _⟩ := mem_relSubs cs x h
    simp

theorem mem_names_of_dir : ∀ (cs : List FSNode) (d : String)
    (cs2 : List FSNode), FSNode.dir d cs2 ∈ cs → d ∈ names cs := by
  intro cs d cs2 h
  exact List.mem_map.mpr ⟨FSNode.dir d cs2, h, rfl⟩

theorem mem_names_of_mem_dirNames : ∀ (cs : List FSNode) (n : String),
    n ∈ dirNames cs → n ∈ names cs
  | [], n, h => by simp [dirNames] at h
  | .file f st :: rest, n, h => by
    rw [show dirNames (.file f st :: rest) = dirNames rest from rfl] at h
    rw [show names (.file f st :: rest) = f :: names rest from rfl]
    exact List.mem_cons_of_mem _ (mem_names_of_mem_dirNames rest n h)
  | .dir d cs2 :: rest, n, h => by
    rw [show dirNames (.dir d cs2 :: rest) = d :: dirNames rest from rfl]
      at h
    rw [show names (.dir d cs2 :: rest) = d :: names rest from rfl]
    rcases List.mem_cons.mp h with h' | h'
    · exact h' ▸ List.mem_cons_self _ _
    · exact List.mem_cons_of_mem _ (mem_names_of_mem_dirNames rest n h')

theorem mem_names_of_mem_fileNames : ∀ (cs : List FSNode) (n : String),
    n ∈ fileNames cs → n ∈ names cs
  | [], n, h => by simp [fileNames] at h
  | .dir d cs2 :: rest, n, h => by
    rw [show fileNames (.dir d cs2 :: rest) = fileNames rest from rfl] at h
    rw [show names (.dir d cs2 :: rest) = d :: names rest from rfl]
    exact List.mem_cons_of_mem _ (mem_names_of_mem_fileNames rest n h)
  | .file f st :: rest, n, h => by
    rw [show fileNames (.file f st :: rest) = f :: fileNames rest from rfl]
      at h
    rw [show names (.file f st :: rest) = f :: names rest from rfl]
    rcases List.mem_cons.mp h with h' | h'
    · exact h' ▸ List.mem_cons_self _ _
    · exact List.mem_cons_of_mem _ (mem_names_of_mem_fileNames rest n h')

theorem names_length : ∀ cs : List FSNode,
    (dirNames cs).length + (fileNames cs).length = cs.length
  | [] => rfl
  | .file f st :: rest => by
    have := names_length rest
    rw [show dirNames (.file f st :: rest) = dirNames rest from rfl,
      show fileNames (.file f st :: rest) = f :: fileNames rest from rfl]
    simp only [List.length_cons]
    omega
  | .dir d cs2 :: rest => by
    have := names_length rest
    rw [show dirNames (.dir d cs2 :: rest) = d :: dirNames rest from rfl,
      show fileNames (.dir d cs2 :: rest) = fileNames rest from rfl]
    simp only [List.length_cons]
    omega

mutual
theorem relSubOne_length : ∀ c : FSNode,
    (relSubOne c).length + 1 = nodeDirs c + nodeFiles c
  | .file f st => by simp [relSubOne, nodeDirs, nodeFiles]
  | .dir d cs => by
    have hA := relSubs_length cs
    have hC := names_length cs
    simp only [relSubOne, nodeDirs, nodeFiles, List.length_map,
      List.length_append]
    omega

theorem relSubs_length : ∀ cs : List FSNode,
    (relSubs cs).length + cs.length = forestDirs cs + forestFiles cs
  | [] => by simp [relSubs, forestDirs, forestFiles]
  | c :: rest => by
    have h1 := relSubOne_length c
    have h2 := relSubs_length rest
    rw [show relSubs (c :: rest) = relSubOne c ++ relSubs rest from rfl,
      show forestDirs (c :: rest) = nodeDirs c + forestDirs rest from rfl,
      show forestFiles (c :: rest) = nodeFiles c + forestFiles rest from rfl]
    simp only [List.length_append, List.length_cons]
    omega
end

theorem relPaths_length (cs : List FSNode) :
    (relPaths cs).length = forestDirs cs + forestFiles cs := by
  have h1 := relSubs_length cs
  have h2 := names_length cs
  simp only [relPaths, List.length_append, List.length_map]
  omega

theorem names_plain : ∀ cs : List FSNode, wfForest cs = true →
    ∀ n ∈ names cs, Plain n.data ∧ '\\' ∉ n.data
  | [], _, n, hn => by simp [names] at hn
  | c :: rest, hwf, n, hn => by
    obtain ⟨hnode, hrest⟩ := wfForest_cons _ _ hwf
    rw [show names (c :: rest) = entryName c :: names rest from rfl] at hn
    rcases List.mem_cons.mp hn with h | h
    · subst h
      cases c with
      | file f st => exact wfNode_file f st hnode
      | dir d cs2 => exact (wfNode_dir d cs2 hnode).1
    · exact names_plain rest hrest n h

theorem relSubs_plain : ∀ cs : List FSNode, wfForest cs = true →
    ∀ x ∈ relSubs cs, ∀ s ∈ x, Plain s.data ∧ '\\' ∉ s.data
  | [], _, x, hx => by simp [relSubs] at hx
  | .file f st :: rest, hwf, x, hx => by
    obtain ⟨_, hrest⟩ := wfForest_cons _ _ hwf
    rw [show relSubs (.file f st :: rest)
      = relSubOne (.file f st) ++ relSubs rest from rfl] at hx
    simp only [relSubOne, List.nil_append] at hx
    exact relSubs_plain rest hrest x hx
  | .dir d cs2 :: rest, hwf, x, hx => by
    obtain ⟨hnode, hrest⟩ := wfForest_cons _ _ hwf
    obtain ⟨hd, hwf2, _⟩ := wfNode_dir d cs2 hnode
    rw [show relSubs (.dir d cs2 :: rest)
      = relSubOne (.dir d cs2) ++ relSubs rest from rfl] at hx
    rcases List.mem_append.mp hx with h | h
    · simp only [relSubOne] at h
      obtain ⟨segs, hsegs, rfl⟩ := List.mem_map.mp h
      have hsegs' : segs ∈ relPaths cs2 := by simpa [relPaths] using hsegs
      intro s hs
      rcases List.mem_cons.mp hs with h' | h'
      · exact h' ▸ hd
      · rcases mem_relPaths cs2 segs hsegs' with ⟨n, hn, rfl⟩ | hsub
        · have hn' : n ∈ names cs2 := by
            rcases hn with h'' | h''
            · exact mem_names_of_mem_dirNames cs2 n h''
            · exact mem_names_of_mem_fileNames cs2 n h''
          have := names_plain cs2 hwf2 n hn'
          simpa using (List.mem_singleton.mp h') ▸ this
        · exact relSubs_plain cs2 hwf2 segs hsub s h'
    · exact relSubs_plain rest hrest x h

theorem relPaths_plain (cs : List FSNode) (hwf : wfForest cs = true) :
    ∀ x ∈ relPaths cs, ∀ s ∈ x, Plain s.data ∧ '\\' ∉ s.data := by
  intro x hx
  rcases mem_relPaths cs x hx with ⟨n, hn, rfl⟩ | h
  · intro s hs
    have hn' : n ∈ names cs := by
      rcases hn with h'' | h''
      · exact mem_names_of_mem_dirNames cs n h''
      · exact mem_names_of_mem_fileNames cs n h''
    have := names_plain cs hwf n hn'
    simpa using (List.mem_singleton.mp hs) ▸ this
  · exact relSubs_plain cs hwf x h

theorem relPaths_nodup_of (cs : List FSNode) (hnd : (names cs).Nodup)
    (hsubs : (relSubs cs).Nodup) : (relPaths cs).Nodup := by
  have hperm := dirNames_append_fileNames_perm cs
  have hnames : (dirNames cs ++ fileNames cs).Nodup :=
    (hperm.nodup_iff).mpr hnd
  have hsingl : ((dirNames cs ++ fileNames cs).map
      (fun n => [n])).Nodup := by
    refine hnames.map ?_
    intro a b hab
    simpa using hab
  rw [show relPaths cs
    = ((dirNames cs ++ fileNames cs).map (fun n => [n])) ++ relSubs cs from by
      simp [relPaths, List.map_append]]
  refine hsingl.append hsubs ?_
  intro x hx1 hx2
  obtain ⟨n, _, rfl⟩ := List.mem_map.mp hx1
  obtain ⟨d, cs2, t, _, heq, ht⟩ := mem_relSubs cs _ hx2
  have htne := mem_relPaths_ne_nil cs2 t ht
  cases t with
  | nil => exact htne rfl
  | cons s ts => simp at heq

theorem relSubs_nodup : ∀ cs : List FSNode, wfForest cs = true →
    (names cs).Nodup → (relSubs cs).Nodup
  | [], _, _ => by simp [relSubs]
  | .file f st :: rest, hwf, hnd => by
    obtain ⟨_, hrest⟩ := wfForest_cons _ _ hwf
    have hnd' : (names rest).Nodup := by
      rw [show names (.file f st :: rest) = f :: names rest from rfl] at hnd
      exact (List.nodup_cons.mp hnd).2
    rw [show relSubs (.file f st :: rest)
      = relSubOne (.file f st) ++ relSubs rest from rfl]
    simpa [relSubOne] using relSubs_nodup rest hrest hnd'
  | .dir d cs2 :: rest, hwf, hnd => by
    obtain ⟨hnode, hrest⟩ := wfForest_cons _ _ hwf
    obtain ⟨hd, hwf2, hnd2⟩ := wfNode_dir d cs2 hnode
    have hnotin : d ∉ names rest := by
      rw [show names (.dir d cs2 :: rest) = d :: names rest from rfl] at hnd
      exact (List.nodup_cons.mp hnd).1
    have hndrest : (names rest).Nodup := by
      rw [show names (.dir d cs2 :: rest) = d :: names rest from rfl] at hnd
      exact (List.nodup_cons.mp hnd).2
    have hsub2 := relSubs_nodup cs2 hwf2 hnd2
    have hp2 := relPaths_nodup_of cs2 hnd2 hsub2
    have h1 : ((relPaths cs2).map (fun segs => d :: segs)).Nodup := by
      refine hp2.map ?_
      intro a b hab
      simpa using hab
    have h2 := relSubs_nodup rest hrest hndrest
    rw [show relSubs (.dir d cs2 :: rest)
      = relSubOne (.dir d cs2) ++ relSubs rest from rfl]
    have hmap : relSubOne (.dir d cs2)
        = (relPaths cs2).map (fun segs => d :: segs) := by
      simp [relSubOne, relPaths]
    rw [hmap]
    refine h1.append h2 ?_
    intro x hx1 hx2
    obtain ⟨segs, _, rfl⟩ := List.mem_map.mp hx1
    obtain ⟨d', cs2', t, hmem', heq, _⟩ := mem_relSubs rest _ hx2
    have hd' : d' ∈ names rest := mem_names_of_dir rest d' cs2' hmem'
    have hdd : d = d' := by
      have h' : d = d' ∧ segs = t := by simpa using heq
      exact h'.1
    exact hnotin (hdd ▸ hd')

theorem relPaths_nodup (cs : List FSNode) (hwf : wfForest cs = true)
    (hnd : (names cs).Nodup) : (relPaths cs).Nodup :=
  relPaths_nodup_of cs hnd (relSubs_nodup cs hwf hnd)

/-! ## Injectivity of segment joining (toward C7) -/

theorem append_sep_cancel (g1 : List Char) : ∀ (g2 r1 r2 : List Char),
    '/' ∉ g1 → '/' ∉ g2 →
    (r1 = [] ∨ ∃ t, r1 = '/' :: t) → (r2 = [] ∨ ∃ t, r2 = '/' :: t) →
    g1 ++ r1 = g2 ++ r2 → g1 = g2 ∧ r1 = r2 := by
  induction g1 with
  | nil =>
    intro g2 r1 r2 hg1 hg2 hr1 hr2 heq
    cases g2 with
    | nil => exact ⟨rfl, by simpa using heq⟩
    | cons c2 cs2 =>
      exfalso
      rcases hr1 with rfl | ⟨t, rfl⟩
      · simp at heq
      · simp only [List.nil_append, List.cons_append, List.cons.injEq]
          at heq
        exact hg2 (by rw [heq.1]; exact List.mem_cons_self _ _)
  | cons c1 cs1 ih =>
    intro g2 r1 r2 hg1 hg2 hr1 hr2 heq
    cases g2 with
    | nil =>
      exfalso
      rcases hr2 with rfl | ⟨t, rfl⟩
      · simp at heq
      · simp only [List.nil_append, List.cons_append, List.cons.injEq]
          at heq
        exact hg1 (by rw [← heq.1]; exact List.mem_cons_self _ _)
    | cons c2 cs2 =>
      simp only [List.cons_append, List.cons.injEq] at heq
      obtain ⟨rfl, heq2⟩ := heq
      have h1 : '/' ∉ cs1 := fun h => hg1 (List.mem_cons_of_mem _ h)
      have h2 : '/' ∉ cs2 := fun h => hg2 (List.mem_cons_of_mem _ h)
      obtain ⟨hgs, hrs⟩ := ih cs2 r1 r2 h1 h2 hr1 hr2 heq2
      exact ⟨by rw [hgs], hrs⟩

theorem joinSeg_cons_shape (g : List Char) (t : List (List Char)) :
    (t = [] ∧ joinSeg (g :: t) = g ++ [])
    ∨ (t ≠ [] ∧ joinSeg (g :: t) = g ++ '/' :: joinSeg t) := by
  cases t with
  | nil => exact Or.inl ⟨rfl, by simp [joinSeg]⟩
  | cons y ys => exact Or.inr ⟨by simp, rfl⟩

theorem joinSeg_inj : ∀ (gs1 gs2 : List (List Char)),
    (∀ g ∈ gs1, g ≠ [] ∧ '/' ∉ g) → (∀ g ∈ gs2, g ≠ [] ∧ '/' ∉ g) →
    joinSeg gs1 = joinSeg gs2 → gs1 = gs2
  | [], [], _, _, _ => rfl
  | [], g2 :: t2, _, h2, heq => by
    exfalso
    have hg2 := h2 g2 (by simp)
    rw [show joinSeg ([] : List (List Char)) = [] from rfl] at heq
    rcases joinSeg_cons_shape g2 t2 with ⟨_, hsh⟩ | ⟨_, hsh⟩ <;>
      rw [hsh] at heq
    · exact hg2.1 (List.append_eq_nil.mp heq.symm).1
    · exact hg2.1 (List.append_eq_nil.mp heq.symm).1
  | g1 :: t1, [], h1, _, heq => by
    exfalso
    have hg1 := h1 g1 (by simp)
    rw [show joinSeg ([] : List (List Char)) = [] from rfl] at heq
    rcases joinSeg_cons_shape g1 t1 with ⟨_, hsh⟩ | ⟨_, hsh⟩ <;>
      rw [hsh] at heq
    · exact hg1.1 (List.append_eq_nil.mp heq).1
    · exact hg1.1 (List.append_eq_nil.mp heq).1
  | g1 :: t1, g2 :: t2, h1, h2, heq => by
    have hg1 := h1 g1 (by simp)
    have hg2 := h2 g2 (by simp)
    have ht1 : ∀ g ∈ t1, g ≠ [] ∧ '/' ∉ g :=
      fun g hg => h1 g (List.mem_cons_of_mem _ hg)
    have ht2 : ∀ g ∈ t2, g ≠ [] ∧ '/' ∉ g :=
      fun g hg => h2 g (List.mem_cons_of_mem _ hg)
    rcases joinSeg_cons_shape g1 t1 with ⟨he1, hsh1⟩ | ⟨he1, hsh1⟩ <;>
      rcases joinSeg_cons_shape g2 t2 with ⟨he2, hsh2⟩ | ⟨he2, hsh2⟩ <;>
      rw [hsh1, hsh2] at heq
    · obtain ⟨hg, _⟩ := append_sep_cancel g1 g2 _ _ hg1.2 hg2.2
        (Or.inl rfl) (Or.inl rfl) heq
      rw [he1, he2, hg]
    · obtain ⟨_, hr⟩ := append_sep_cancel g1 g2 _ _ hg1.2 hg2.2
        (Or.inl rfl) (Or.inr ⟨joinSeg t2, rfl⟩) heq
      simp at hr
    · obtain ⟨_, hr⟩ := append_sep_cancel g1 g2 _ _ hg1.2 hg2.2
        (Or.inr ⟨joinSeg t1, rfl⟩) (Or.inl rfl) heq
      simp at hr
    · obtain ⟨hg, hr⟩ := append_sep_cancel g1 g2 _ _ hg1.2 hg2.2
        (Or.inr ⟨joinSeg t1, rfl⟩) (Or.inr ⟨joinSeg t2, rfl⟩) heq
      have hjoin : joinSeg t1 = joinSeg t2 := by simpa using hr
      rw [hg, joinSeg_inj t1 t2 ht1 ht2 hjoin]

theorem appendSegs_data : ∀ (segs : List String) (p : String) (k : Nat)
    (comps : List (List Char)), 1 ≤ k → (∀ g ∈ comps, Plain g) →
    (∀ s ∈ segs, Plain s.data) →
    p.data = List.replicate k '/' ++ joinSeg comps →
    (appendSegs p segs).data
      = List.replicate k '/' ++ joinSeg (comps ++ segs.map String.data)
  | [], p, k, comps, _, _, _, hp => by simp [appendSegs, hp]
  | s :: rest, p, k, comps, hk, hcomps, hsegs, hp => by
    have hs := hsegs s (by simp)
    have hstep : (pjoinS p s).data
        = List.replicate k '/' ++ joinSeg (comps ++ [s.data]) := by
      show pjoin p.data s.data = _
      rw [hp, pjoin_canon k hk comps hcomps s.data hs]
    have hplain2 : ∀ g ∈ comps ++ [s.data], Plain g := by
      intro g hg
      rcases List.mem_append.mp hg with h' | h'
      · exact hcomps g h'
      · simpa using (List.mem_singleton.mp h') ▸ hs
    have ih := appendSegs_data rest (pjoinS p s) k (comps ++ [s.data]) hk
      hplain2 (fun x hx => hsegs x (List.mem_cons_of_mem _ hx)) hstep
    show (appendSegs (pjoinS p s) rest).data = _
    rw [ih]
    simp

theorem map_data_inj : ∀ (l1 l2 : List String),
    l1.map String.data = l2.map String.data → l1 = l2
  | [], [], _ => rfl
  | [], x :: t, h => by simp at h
  | x :: t, [], h => by simp at h
  | x :: t1, y :: t2, h => by
    simp only [List.map_cons, List.cons.injEq] at h
    rw [String.ext h.1, map_data_inj t1 t2 h.2]

theorem appendSegs_inj (b : String) (hb : NormAbs b.data)
    (x y : List String) (hx : ∀ s ∈ x, Plain s.data)
    (hy : ∀ s ∈ y, Plain s.data)
    (hxy : appendSegs b x = appendSegs b y) : x = y := by
  obtain ⟨habs, _, hfix⟩ := hb
  obtain ⟨k, comps, hk1, hk2, hplain, heq⟩ := normpath_abs_form b.data habs
  rw [hfix] at heq
  have hdx := appendSegs_data x b k comps hk1 hplain hx heq
  have hdy := appendSegs_data y b k comps hk1 hplain hy heq
  have hdata : (appendSegs b x).data = (appendSegs b y).data := by rw [hxy]
  rw [hdx, hdy] at hdata
  have h2 := List.append_cancel_left hdata
  have hc1 : ∀ g ∈ comps ++ x.map String.data, g ≠ [] ∧ '/' ∉ g := by
    intro g hg
    rcases List.mem_append.mp hg with h' | h'
    · exact ⟨(hplain g h').1, (hplain g h').2.2.2⟩
    · obtain ⟨s, hs, rfl⟩ := List.mem_map.mp h'
      exact ⟨(hx s hs).1, (hx s hs).2.2.2⟩
  have hc2 : ∀ g ∈ comps ++ y.map String.data, g ≠ [] ∧ '/' ∉ g := by
    intro g hg
    rcases List.mem_append.mp hg with h' | h'
    · exact ⟨(hplain g h').1, (hplain g h').2.2.2⟩
    · obtain ⟨s, hs, rfl⟩ := List.mem_map.mp h'
      exact ⟨(hy s hs).1, (hy s hs).2.2.2⟩
  have h3 := joinSeg_inj _ _ hc1 hc2 h2
  exact map_data_inj x y (List.append_cancel_left h3)

/-! ## Every walk descriptor uses its path as its id -/

theorem walkDirs_id_eq_path (roots : List String) (cwd : String) :
    ∀ (cs : List FSNode) (r : String) (x : Resource),
      x ∈ walkDirs roots cwd r cs → x.id = x.path
  | [], r, x, hx => by simp [walkDirs] at hx
  | .file f st :: rest, r, x, hx => by
    rw [show walkDirs roots cwd r (.file f st :: rest)
      = walkDirs roots cwd r rest from rfl] at hx
    exact walkDirs_id_eq_path roots cwd rest r x hx
  | .dir d cs2 :: rest, r, x, hx => by
    simp only [walkDirs] at hx
    rcases List.mem_append.mp hx with h | h
    · split at h
      · obtain rfl := List.mem_singleton.mp h
        rfl
      · simp at h
    · exact walkDirs_id_eq_path roots cwd rest r x h

theorem walkFiles_id_eq_path (roots exts : List String) (cwd : String) :
    ∀ (cs : List FSNode) (r : String) (x : Resource),
      x ∈ walkFiles roots exts cwd r cs → x.id = x.path
  | [], r, x, hx => by simp [walkFiles] at hx
  | .dir d cs2 :: rest, r, x, hx => by
    rw [show walkFiles roots exts cwd r (.dir d cs2 :: rest)
      = walkFiles roots exts cwd r rest from rfl] at hx
    exact walkFiles_id_eq_path roots exts cwd rest r x hx
  | .file f st :: rest, r, x, hx => by
    simp only [walkFiles] at hx
    rcases List.mem_append.mp hx with h | h
    · split at h
      · obtain rfl := List.mem_singleton.mp h
        rfl
      · simp at h
    · exact walkFiles_id_eq_path roots exts cwd rest r x h

theorem walkSubs_id_eq_path (roots exts : List String) (cwd : String) :
    ∀ (cs : List FSNode) (r : String) (x : Resource),
      x ∈ walkSubs roots exts cwd r cs → x.id = x.path
  | [], r, x, hx => by simp [walkSubs] at hx
  | .file f st :: rest, r, x, hx => by
    rw [show walkSubs roots exts cwd r (.file f st :: rest)
      = walkSubOne roots exts cwd r (.file f st)
        ++ walkSubs roots exts cwd r rest from rfl] at hx
    simp only [walkSubOne, List.nil_append] at hx
    exact walkSubs_id_eq_path roots exts cwd rest r x hx
  | .dir d cs2 :: rest, r, x, hx => by
    rw [show walkSubs roots exts cwd r (.dir d cs2 :: rest)
      = walkSubOne roots exts cwd r (.dir d cs2)
        ++ walkSubs roots exts cwd r rest from rfl] at hx
    rcases List.mem_append.mp hx with h | h
    · simp only [walkSubOne, List.mem_append] at h
      rcases h with (h' | h') | h'
      · exact walkDirs_id_eq_path roots cwd cs2 (pjoinS r d) x h'
      · exact walkFiles_id_eq_path roots exts cwd cs2 (pjoinS r d) x h'
      · exact walkSubs_id_eq_path roots exts cwd cs2 (pjoinS r d) x h'
    · exact walkSubs_id_eq_path roots exts cwd rest r x h

/-! ## Claim theorem C7 -/

/-- C7: the list_resources walk over a well-formed tree of N files and M
directories under an allowed root — root in the configured set, all
files with permitted extensions — returns exactly N + M resource
descriptors, with pairwise-distinct ids, each descriptor's id being its
normalized absolute path (id = path by construction of the walk, which
stores the normalized join in both fields). -/
theorem list_resources_descriptors (roots exts : List String)
    (cwd base : String) (cs : List FSNode)
    (hb : base ∈ roots) (hbase : NormAbs base.data)
    (hwf : wfTree cs = true) (hexts : extOKForest exts cs = true) :
    (walkResources roots exts cwd base cs).length
      = forestFiles cs + forestDirs cs
    ∧ ((walkResources roots exts cwd base cs).map Resource.id).Nodup
    ∧ ∀ x ∈ walkResources roots exts cwd base cs, x.id = x.path := by
  obtain ⟨hwfF, hnd⟩ : wfForest cs = true ∧ (names cs).Nodup := by
    simpa [wfTree, Bool.and_eq_true] using hwf
  have hmap := walkResources_map_id roots exts cwd base hb cs base hbase
    (List.prefix_refl _) hwfF hexts
  refine ⟨?_, ?_, ?_⟩
  · have hlen := congrArg List.length hmap
    simp only [List.length_map] at hlen
    rw [hlen, relPaths_length]
    omega
  · rw [hmap]
    refine (relPaths_nodup cs hwfF hnd).map_on ?_
    intro x hx y hy hxy
    exact appendSegs_inj base hbase x y
      (fun s hs => (relPaths_plain cs hwfF x hx s hs).1)
      (fun s hs => (relPaths_plain cs hwfF y hy s hs).1) hxy
  · intro x hx
    simp only [walkResources, List.mem_append] at hx
    rcases hx with (h | h) | h
    · exact walkDirs_id_eq_path roots cwd cs base x h
    · exact walkFiles_id_eq_path roots exts cwd cs base x h
    · exact walkSubs_id_eq_path roots exts cwd cs base x h

/-- Witness for C7 on the concrete demo tree (2 files, 1 directory). -/
theorem list_resources_descriptors_witness :
    ("/data" ∈ ["/data"] ∧ NormAbs "/data".data ∧ wfTree demoTree = true
      ∧ extOKForest [".txt"] demoTree = true)
    ∧ (walkResources ["/data"] [".txt"] "/" "/data" demoTree).length
        = forestFiles demoTree + forestDirs demoTree
    ∧ ((walkResources ["/data"] [".txt"] "/" "/data" demoTree).map
        Resource.id).Nodup := by
  have h := list_resources_descriptors ["/data"] [".txt"] "/" "/data"
    demoTree (by decide) ⟨by decide, by decide, by decide⟩ (by decide)
    (by decide)
  exact ⟨⟨by decide, ⟨by decide, by decide, by decide⟩, by decide,
    by decide⟩, h.1, h.2.1⟩

end FsApp
